import Mathlib

/-!
# Tumblestone solver: board model and depth-first search

A shallow embedding of `tumblestone.go` (the functions `empty`, `advance` and
`solve` of the board) together with theorems about them.

Modelling conventions
* `color` is Go's `byte`; only equality of colours is ever used, so a colour is a
  natural number and the five named colours are their ASCII codes.
* `board` is `[5][]color`, `state` is `[5]int`.  Cursor components are
  mathematical integers: the code increments a component only while it is below a
  slice length, so an increment never overflows, and a pass of the collapse loop that
  meets a negative component ends in a panic whatever the depth comparisons gave.
* A Go run-time panic (index out of range) is the outcome `Outcome.panic`; negative
  cursor components and column arguments outside `0..4` lead there.
* The two unbounded constructs of the source (the `for { ... }` collapse loop and
  the recursion of `solve`) are iterated under an explicit budget; the outcome
  `Outcome.fuel` marks an exhausted budget and is proved unreachable.
-/

namespace Tumblestone

/-! ## Data model -/

/-- Go `type color byte`. -/
abbrev color := Nat

/-- Colour `'Y'`. -/
def yellow : color := 89
/-- Colour `'R'`. -/
def red : color := 82
/-- Colour `'G'`. -/
def green : color := 71
/-- Colour `'P'`. -/
def purple : color := 80
/-- Colour `'.'`, the obstacle colour. -/
def black : color := 46

/-- Go `type board [5][]color`. -/
abbrev board := Fin 5 → List color

/-- Go `type state [5]int`. -/
abbrev state := Fin 5 → Int

/-- Go `type move struct { col int; color color }`. -/
structure move where
  col : Int
  color : color
deriving DecidableEq

/-- Go `type triple [3]move`. -/
structure triple where
  m0 : move
  m1 : move
  m2 : move
deriving DecidableEq

/-- Result of running a piece of the program. -/
inductive Outcome (α : Type) where
  | ret (a : α)
  | panic
  | fuel

/-- Equality of outcomes is decidable whenever equality of the returned values is. -/
instance instDecidableEqOutcome {α : Type} [DecidableEq α] : DecidableEq (Outcome α)
  | .ret a, .ret b => decidable_of_iff (a = b) ⟨fun h => congrArg _ h, fun h => Outcome.ret.inj h⟩
  | .panic, .panic => isTrue rfl
  | .fuel, .fuel => isTrue rfl
  | .ret _, .panic => isFalse (fun h => Outcome.noConfusion h)
  | .ret _, .fuel => isFalse (fun h => Outcome.noConfusion h)
  | .panic, .ret _ => isFalse (fun h => Outcome.noConfusion h)
  | .panic, .fuel => isFalse (fun h => Outcome.noConfusion h)
  | .fuel, .ret _ => isFalse (fun h => Outcome.noConfusion h)
  | .fuel, .panic => isFalse (fun h => Outcome.noConfusion h)

/-- The index sequence of `for i := range b`. -/
def cols : List (Fin 5) := [0, 1, 2, 3, 4]

/-- Go `len(b[i])` as an `int`. -/
def len (s : List color) : Int := (s.length : Int)

/-- Go slice indexing `s[k]` with an `int` index: out of range is a panic (`none`). -/
def index (s : List color) (k : Int) : Option color :=
  if k < 0 then none else s[k.toNat]?

/-- Go array indexing of a `[5]...` value by an `int`: the index as a `Fin 5`, or `none`
when it is out of range (a panic). -/
def toCol (col : Int) : Option (Fin 5) :=
  if h : 0 ≤ col ∧ col < 5 then some ⟨col.toNat, by omega⟩ else none

/-! ## `empty` -/

/-- The loop of `empty` over the remaining column indices. -/
def emptyFrom (b : board) (st : state) : List (Fin 5) → Bool
  | [] => true
  | i :: is => if st i < len (b i) then false else emptyFrom b st is

/-- Go `func (b *board) empty(st state) bool`. -/
def empty (b : board) (st : state) : Bool :=
  emptyFrom b st cols

/-! ## `advance` -/

/-- The inner loop `for j := range b` of `advance`: the value of `canRemove` after it,
given that it was `true` before. -/
def canRemoveFrom (b : board) (st : state) (i : Fin 5) (depth : Int) : List (Fin 5) → Bool
  | [] => true
  | j :: js =>
    if j = i then canRemoveFrom b st i depth js
    else if len (b j) - st j ≥ depth then false
    else canRemoveFrom b st i depth js

/-- One pass `for i := range b` of the collapse loop, over the remaining column
indices, threading the cursor (updated in place) and the flag `removed`. -/
def scan (b : board) : List (Fin 5) → state → Bool → Outcome (state × Bool)
  | [], st, removed => .ret (st, removed)
  | i :: is, st, removed =>
    if st i < len (b i) then
      match index (b i) (st i) with
      | none => .panic
      | some c =>
        if c = black ∧ canRemoveFrom b st i (len (b i) - st i) cols = true then
          scan b is (Function.update st i (st i + 1)) true
        else scan b is st removed
    else scan b is st removed

/-- The collapse loop `for { ... }` of `advance`, run for at most `n` passes. -/
def collapse (b : board) : Nat → state → Outcome state
  | 0, _ => .fuel
  | n + 1, st =>
    match scan b cols st false with
    | .ret (st1, true) => collapse b n st1
    | .ret (st1, false) => .ret st1
    | .panic => .panic
    | .fuel => .fuel

/-- Number of blocks at or above the cursors. -/
def remaining (b : board) (st : state) : Nat :=
  (cols.map (fun i => (len (b i) - st i).toNat)).sum

/-- Go `func (b *board) advance(st state, col int) (color, state, bool)`. -/
def advance (b : board) (st : state) (col : Int) : Outcome (color × state × Bool) :=
  match toCol col with
  | none => .panic
  | some i =>
    if st i ≥ len (b i) then .ret (0, st, false)
    else
      match index (b i) (st i) with
      | none => .panic
      | some c =>
        let st1 := Function.update st i (st i + 1)
        match collapse b (remaining b st1 + 1) st1 with
        | .ret st2 => .ret (c, st2, true)
        | .panic => .panic
        | .fuel => .fuel

/-! ## `solve` -/

/-- A `for ... range b` loop whose body either continues (`ret none`) or leaves the
enclosing function with a value (`ret (some x)`). -/
def forCols {α : Type} (f : Fin 5 → Outcome (Option α)) : List (Fin 5) → Outcome (Option α)
  | [] => .ret none
  | i :: is =>
    match f i with
    | .ret none => forCols f is
    | r => r

/-- Go `int` value of a loop index. -/
def colInt (i : Fin 5) : Int := (i.val : Int)

/-- Body of the innermost loop `for k := range b` of `solve`, with first move `i`, second
move `j`, colour `c` and the cursor `st2` after the second move; `rec` is the recursive call
`b.solve`. -/
def solveK (rec : state → Outcome (List triple × Bool)) (b : board) (c : color)
    (i j : Fin 5) (st2 : state) (k : Fin 5) : Outcome (Option (List triple)) :=
  match advance b st2 (colInt k) with
  | .ret (c3, st3, ok) =>
    if !ok then .ret none
    else if c3 ≠ c then .ret none
    else
      match rec st3 with
      | .ret (soln, true) =>
        .ret (some (⟨⟨colInt i, c⟩, ⟨colInt j, c⟩, ⟨colInt k, c⟩⟩ :: soln))
      | .ret (_, false) => .ret none
      | .panic => .panic
      | .fuel => .fuel
  | .panic => .panic
  | .fuel => .fuel

/-- Body of the middle loop `for j := range b` of `solve`, with first move `i`, colour `c`
and the cursor `st1` after the first move. -/
def solveJ (rec : state → Outcome (List triple × Bool)) (b : board) (c : color)
    (i : Fin 5) (st1 : state) (j : Fin 5) : Outcome (Option (List triple)) :=
  match advance b st1 (colInt j) with
  | .ret (c2, st2, ok) =>
    if !ok then .ret none
    else if c2 ≠ c then .ret none
    else forCols (solveK rec b c i j st2) cols
  | .panic => .panic
  | .fuel => .fuel

/-- Body of the outer loop `for i := range b` of `solve`. -/
def solveI (rec : state → Outcome (List triple × Bool)) (b : board) (st : state)
    (i : Fin 5) : Outcome (Option (List triple)) :=
  match advance b st (colInt i) with
  | .ret (c1, st1, ok) =>
    if !ok then .ret none
    else if c1 = black then .ret none
    else forCols (solveJ rec b c1 i st1) cols
  | .panic => .panic
  | .fuel => .fuel

/-- Go `func (b *board) solve(st state) ([]triple, bool)` with recursion depth at most `n`. -/
def solveFuel : Nat → board → state → Outcome (List triple × Bool)
  | 0, _, _ => .fuel
  | n + 1, b, st =>
    if empty b st then .ret ([], true)
    else
      match forCols (solveI (solveFuel n b) b st) cols with
      | .ret (some soln) => .ret (soln, true)
      | .ret none => .ret ([], false)
      | .panic => .panic
      | .fuel => .fuel

/-- Go `func (b *board) solve(st state) ([]triple, bool)`. -/
def solve (b : board) (st : state) : Outcome (List triple × Bool) :=
  solveFuel (remaining b st + 1) b st

/-! ## Specification vocabulary -/

/-- Column `i` qualifies for an automatic removal. -/
def Eligible (b : board) (st : state) (i : Fin 5) : Prop :=
  st i < len (b i) ∧ index (b i) (st i) = some black ∧
    ∀ j, j ≠ i → len (b j) - st j < len (b i) - st i

/-- No cursor component is negative. -/
def NonNeg (st : state) : Prop := ∀ i, 0 ≤ st i

/-- The cursor invariant. -/
def Valid (b : board) (st : state) : Prop := ∀ i, 0 ≤ st i ∧ st i ≤ len (b i)

/-- The three moves of a triple, in order. -/
def triple.moves (t : triple) : List move := [t.m0, t.m1, t.m2]

/-- The moves of a solution, three per triple, in order. -/
def movesOf : List triple → List move
  | [] => []
  | t :: ts => t.moves ++ movesOf ts

/-- The column indices of a solution, in order. -/
def colsOf (soln : List triple) : List Int := (movesOf soln).map move.col

/-- Replaying moves by `advance`, each from the cursor left by the previous one: the final
cursor, provided every call succeeds and reports the colour recorded in its move. -/
def replay (b : board) : state → List move → Option state
  | st, [] => some st
  | st, mv :: mvs =>
    match advance b st mv.col with
    | .ret (c, st1, true) => if c = mv.color then replay b st1 mvs else none
    | _ => none

/-- Three successive successful `advance` calls that all report the same non-obstacle colour:
the triple `t` leads from `st` to `st3`. -/
def TripleStep (b : board) (st : state) (t : triple) (st3 : state) : Prop :=
  ∃ st1 st2, advance b st t.m0.col = .ret (t.m0.color, st1, true) ∧
    advance b st1 t.m1.col = .ret (t.m1.color, st2, true) ∧
    advance b st2 t.m2.col = .ret (t.m2.color, st3, true) ∧
    t.m0.color ≠ black ∧ t.m1.color = t.m0.color ∧ t.m2.color = t.m0.color

/-- The triple sequence `ts` clears the board from `st`. -/
inductive Clears (b : board) : state → List triple → Prop
  | done {st : state} : empty b st = true → Clears b st []
  | step {st st3 : state} {t : triple} {ts : List triple} :
      TripleStep b st t st3 → Clears b st3 ts → Clears b st (t :: ts)

/-- The triple built by `solve` from loop indices `i`, `j`, `k` and colour `c`. -/
def mkTriple (i j k : Fin 5) (c : color) : triple :=
  ⟨⟨colInt i, c⟩, ⟨colInt j, c⟩, ⟨colInt k, c⟩⟩

/-- Order of enumeration of the three nested loops of `solve`. -/
def Before (i j k i2 j2 k2 : Fin 5) : Prop :=
  i < i2 ∨ (i = i2 ∧ (j < j2 ∨ (j = j2 ∧ k < k2)))

/-- Three successive successful moves on the loop indices `i`, `j`, `k`, all of the
non-obstacle colour `c`. -/
def Step3 (b : board) (st : state) (i j k : Fin 5) (c : color) (st3 : state) : Prop :=
  ∃ st1 st2, advance b st (colInt i) = .ret (c, st1, true) ∧
    advance b st1 (colInt j) = .ret (c, st2, true) ∧
    advance b st2 (colInt k) = .ret (c, st3, true) ∧ c ≠ black

/-- The all-zero initial cursor `state{}`. -/
def start : state := fun _ => 0

/-- The terminal cursor of a board: every component equals its column's length. -/
def terminal (b : board) : state := fun i => len (b i)

/-- Cursors obtainable from the initial cursor by `advance` calls on loop indices.  From such
a cursor the loops of `solve` hand only cursors of this kind to the recursive call
(`solveI_reached`). -/
inductive Reached (b : board) : state → Prop
  | init : Reached b start
  | next {st st2 : state} {c : color} {ok : Bool} (i : Fin 5) :
      Reached b st → advance b st (colInt i) = .ret (c, st2, ok) → Reached b st2

/-- Sample board: a red and a green triple, with an obstacle on top of column 0. -/
def boardA : board := ![[red, green, black], [red, green], [red, green], [], []]

/-- The solution `solve` finds on `boardA`. -/
def solnA : List triple :=
  [⟨⟨0, red⟩, ⟨1, red⟩, ⟨2, red⟩⟩, ⟨⟨0, green⟩, ⟨1, green⟩, ⟨2, green⟩⟩]

/-- Sample board whose column 0 starts with an obstacle. -/
def boardB : board := ![[black], [red], [], [], []]

/-- Sample board: the single obstacle sits at the cursor of the deepest column. -/
def boardC : board := ![[black, red], [red], [], [], []]

/-- Sum of the cursor components. -/
def cursorSum (st : state) : Int := (cols.map st).sum

/-- The cursor after `st[i]++`. -/
def bump (st : state) (i : Fin 5) : state := Function.update st i (st i + 1)

/-- Total number of blocks of a board. -/
def total (b : board) : Nat := (cols.map (fun i => (b i).length)).sum

/-- Eligibility is decidable. -/
instance instDecidableEligible (b : board) (st : state) (i : Fin 5) :
    Decidable (Eligible b st i) :=
  inferInstanceAs (Decidable (st i < len (b i) ∧ index (b i) (st i) = some black ∧
    ∀ j, j ≠ i → len (b j) - st j < len (b i) - st i))

/-- Sample board: two obstacles stacked at the bottom of column 1. -/
def boardD : board := ![[red], [black, black, red], [], [], []]

/-- Sample board: columns 0 and 1 tie for the greatest depth after a move on column 2. -/
def boardE : board := ![[black, red], [black, red], [red, red, red], [], []]

/-- Reference definition, from the specification of the collapse rule: column `i` is eligible
at the cursor `st` iff (a) the block at its cursor is the obstacle colour and (b) no other
column has remaining height `length - cursor` greater than or equal to that of column `i`. -/
def eligibleRef (b : board) (st : state) (i : Fin 5) : Bool :=
  (index (b i) (st i) == some black) &&
    cols.all (fun j => j == i || decide (len (b j) - st j < len (b i) - st i))

/-- Reference definition of one collapse pass: eligibility of every column is decided from
the cursor at the start of the pass, and all eligible columns are incremented
simultaneously; the flag tells whether the pass removed anything. -/
def passRef (b : board) (st : state) : state × Bool :=
  (fun i => if eligibleRef b st i then st i + 1 else st i, cols.any (eligibleRef b st))

/-- Reference definition of the collapse rule: passes are repeated until a full pass removes
nothing (at most `n` passes). -/
def collapseRef (b : board) : Nat → state → Outcome state
  | 0, _ => .fuel
  | n + 1, st =>
    match passRef b st with
    | (st1, true) => collapseRef b n st1
    | (st1, false) => .ret st1

/-- Reference definition of `advance`, from the specification: fail when the cursor of the
chosen column equals the column's length, otherwise take the block at the cursor, increment
the cursor and apply the collapse rule with simultaneous passes.  The specification leaves
open which colour and cursor accompany a failure; the reference returns those of the
source, colour 0 and the unchanged cursor. -/
def advanceRef (b : board) (st : state) (col : Int) : Outcome (color × state × Bool) :=
  match toCol col with
  | none => .panic
  | some i =>
    if st i = len (b i) then .ret (0, st, false)
    else
      match index (b i) (st i) with
      | none => .panic
      | some c =>
        match collapseRef b (remaining b (Function.update st i (st i + 1)) + 1)
            (Function.update st i (st i + 1)) with
        | .ret st2 => .ret (c, st2, true)
        | .panic => .panic
        | .fuel => .fuel

/-- Number of remaining blocks, those at positions `>= st[i]` in column `i`, whose colour
satisfies `p`. -/
def remainingWhere (p : color → Bool) (b : board) (st : state) : Nat :=
  (cols.map (fun i => ((b i).drop (st i).toNat).countP p)).sum

/-- Number of remaining blocks of colour `c`. -/
def countColour (b : board) (st : state) (c : color) : Nat :=
  remainingWhere (fun x => x == c) b st

/-- Number of remaining blocks that are not obstacles. -/
def countReal (b : board) (st : state) : Nat :=
  remainingWhere (fun x => x != black) b st

/-- Number of triples of colour `c` in a solution. -/
def triplesOf (c : color) (soln : List triple) : Nat :=
  soln.countP (fun t => t.m0.color == c)

/-- Sample board: one block per column, yellow, red, green, purple, yellow. -/
def boardF : board := ![[yellow], [red], [green], [purple], [yellow]]

/-- Sample board: one red block in each of the columns 0, 1 and 2. -/
def boardR : board := ![[red], [red], [red], [], []]

/-- The cursor invariant is decidable. -/
instance instDecidableValid (b : board) (st : state) : Decidable (Valid b st) :=
  inferInstanceAs (Decidable (∀ i, 0 ≤ st i ∧ st i ≤ len (b i)))

/-- Assertion of the cursor invariant on `st`: the computation `k` goes on only when `st` is
within the bounds `0 <= st[i] <= len(b[i])`; a violated assertion stops with `panic`. -/
def assertValid {α : Type} (b : board) (st : state) (k : Outcome α) : Outcome α :=
  if Valid b st then k else .panic

/-- The call `b.advance(st, col)` with the cursor it returns, on success or on failure,
asserted to be within the bounds. -/
def advanceAsserted (b : board) (st : state) (col : Int) : Outcome (color × state × Bool) :=
  match advance b st col with
  | .ret (c, st1, ok) => assertValid b st1 (.ret (c, st1, ok))
  | .panic => .panic
  | .fuel => .fuel

/-- The body `solveK` of the innermost loop of `solve`, with the cursor returned by its
`advance` call asserted to be within the bounds. -/
def solveKAsserted (rec : state → Outcome (List triple × Bool)) (b : board) (c : color)
    (i j : Fin 5) (st2 : state) (k : Fin 5) : Outcome (Option (List triple)) :=
  match advanceAsserted b st2 (colInt k) with
  | .ret (c3, st3, ok) =>
    if !ok then .ret none
    else if c3 ≠ c then .ret none
    else
      match rec st3 with
      | .ret (soln, true) =>
        .ret (some (⟨⟨colInt i, c⟩, ⟨colInt j, c⟩, ⟨colInt k, c⟩⟩ :: soln))
      | .ret (_, false) => .ret none
      | .panic => .panic
      | .fuel => .fuel
  | .panic => .panic
  | .fuel => .fuel

/-- The body `solveJ` of the middle loop of `solve`, with the cursor returned by its
`advance` call asserted to be within the bounds. -/
def solveJAsserted (rec : state → Outcome (List triple × Bool)) (b : board) (c : color)
    (i : Fin 5) (st1 : state) (j : Fin 5) : Outcome (Option (List triple)) :=
  match advanceAsserted b st1 (colInt j) with
  | .ret (c2, st2, ok) =>
    if !ok then .ret none
    else if c2 ≠ c then .ret none
    else forCols (solveKAsserted rec b c i j st2) cols
  | .panic => .panic
  | .fuel => .fuel

/-- The body `solveI` of the outer loop of `solve`, with the cursor returned by its
`advance` call asserted to be within the bounds. -/
def solveIAsserted (rec : state → Outcome (List triple × Bool)) (b : board) (st : state)
    (i : Fin 5) : Outcome (Option (List triple)) :=
  match advanceAsserted b st (colInt i) with
  | .ret (c1, st1, ok) =>
    if !ok then .ret none
    else if c1 = black then .ret none
    else forCols (solveJAsserted rec b c1 i st1) cols
  | .panic => .panic
  | .fuel => .fuel

/-- The function `solve` (as `solveFuel`) with the cursor invariant asserted on every cursor
it reaches: the cursor handed to each activation of `solve`, which is the one passed to
`empty` and to the first `advance`, and every cursor returned by an `advance` call, which
are the ones passed to the later `advance` calls and to the recursive call. -/
def solveAsserted : Nat → board → state → Outcome (List triple × Bool)
  | 0, _, _ => .fuel
  | n + 1, b, st =>
    assertValid b st
      (if empty b st then .ret ([], true)
      else
        match forCols (solveIAsserted (solveAsserted n b) b st) cols with
        | .ret (some soln) => .ret (soln, true)
        | .ret none => .ret ([], false)
        | .panic => .panic
        | .fuel => .fuel)

/-! ## Lemmas -/

theorem cols_complete (i : Fin 5) : i ∈ cols := by
  fin_cases i <;> simp [cols]

theorem cols_nodup : cols.Nodup := by decide

theorem cols_sorted : cols.Pairwise (fun a c => a < c) := by decide

theorem toCol_colInt (i : Fin 5) : toCol (colInt i) = some i := by
  have hi := i.isLt
  unfold toCol colInt
  rw [dif_pos ⟨by omega, by omega⟩]
  simp

theorem toCol_eq_some {col : Int} {i : Fin 5} (h : toCol col = some i) : col = colInt i := by
  unfold toCol at h
  split at h
  · rename_i hc
    simp only [Option.some.injEq] at h
    subst h
    simp [colInt]
    omega
  · simp at h

theorem colInt_inj {i j : Fin 5} (h : colInt i = colInt j) : i = j := by
  unfold colInt at h
  exact Fin.ext (by omega)

theorem colInt_lt_iff {i j : Fin 5} : colInt i < colInt j ↔ i < j := by
  unfold colInt
  rw [Fin.lt_def]
  omega

theorem colInt_range (i : Fin 5) : 0 ≤ colInt i ∧ colInt i < 5 := by
  have := i.isLt
  unfold colInt
  omega

theorem index_bounds {s : List color} {k : Int} {c : color} (h : index s k = some c) :
    0 ≤ k ∧ k < len s := by
  unfold index at h
  split at h
  · simp at h
  · rename_i hk
    have := (List.getElem?_eq_some.mp h).1
    unfold len
    omega

theorem index_isSome {s : List color} {k : Int} (h0 : 0 ≤ k) (h1 : k < len s) :
    ∃ c, index s k = some c := by
  unfold len at h1
  have hk : k.toNat < s.length := by omega
  refine ⟨s[k.toNat], ?_⟩
  unfold index
  rw [if_neg (by omega)]
  exact List.getElem?_eq_getElem hk

theorem emptyFrom_iff (b : board) (st : state) (l : List (Fin 5)) :
    emptyFrom b st l = true ↔ ∀ i ∈ l, len (b i) ≤ st i := by
  induction l with
  | nil => simp [emptyFrom]
  | cons i is ih =>
    unfold emptyFrom
    by_cases h : st i < len (b i)
    · simp only [h, if_true, List.mem_cons, forall_eq_or_imp]
      constructor
      · intro hf; exact absurd hf (by simp)
      · intro hf; omega
    · simp only [h, if_false, List.mem_cons, forall_eq_or_imp, ih]
      constructor
      · intro hf; exact ⟨by omega, hf⟩
      · intro hf; exact hf.2

theorem empty_iff (b : board) (st : state) :
    empty b st = true ↔ ∀ i, len (b i) ≤ st i := by
  unfold empty
  rw [emptyFrom_iff]
  exact ⟨fun h i => h i (cols_complete i), fun h i _ => h i⟩

theorem canRemoveFrom_iff (b : board) (st : state) (i : Fin 5) (d : Int) (l : List (Fin 5)) :
    canRemoveFrom b st i d l = true ↔ ∀ j ∈ l, j ≠ i → len (b j) - st j < d := by
  induction l with
  | nil => simp [canRemoveFrom]
  | cons j js ih =>
    unfold canRemoveFrom
    by_cases hji : j = i
    · simp only [hji, if_true, ih, List.mem_cons, forall_eq_or_imp]
      constructor
      · intro hf; exact ⟨fun hne => absurd rfl hne, hf⟩
      · intro hf; exact hf.2
    · by_cases hd : len (b j) - st j ≥ d
      · simp only [hji, if_false, hd, if_true, List.mem_cons, forall_eq_or_imp]
        constructor
        · intro hf; exact absurd hf (by simp)
        · intro hf; have := hf.1 hji; omega
      · simp only [hji, if_false, hd, ih, List.mem_cons, forall_eq_or_imp]
        constructor
        · intro hf; exact ⟨fun _ => by omega, hf⟩
        · intro hf; exact hf.2

theorem canRemove_cols_iff (b : board) (st : state) (i : Fin 5) (d : Int) :
    canRemoveFrom b st i d cols = true ↔ ∀ j, j ≠ i → len (b j) - st j < d := by
  rw [canRemoveFrom_iff]
  exact ⟨fun h j => h j (cols_complete j), fun h j _ => h j⟩

theorem scan_cons_eligible {b : board} {st : state} {i : Fin 5} (is : List (Fin 5)) (r : Bool)
    (h : Eligible b st i) :
    scan b (i :: is) st r = scan b is (Function.update st i (st i + 1)) true := by
  obtain ⟨h1, h2, h3⟩ := h
  have hc := (canRemove_cols_iff b st i (len (b i) - st i)).mpr h3
  rw [scan, if_pos h1, h2]
  simp only [hc, and_self, if_true]

theorem scan_cons_not_eligible {b : board} {st : state} {i : Fin 5} (is : List (Fin 5))
    (r : Bool) (h : ¬ Eligible b st i) (h0 : st i < len (b i) → 0 ≤ st i) :
    scan b (i :: is) st r = scan b is st r := by
  rw [scan]
  by_cases h1 : st i < len (b i)
  · rw [if_pos h1]
    obtain ⟨c, hc⟩ := index_isSome (h0 h1) h1
    rw [hc]
    have : ¬ (c = black ∧ canRemoveFrom b st i (len (b i) - st i) cols = true) := by
      rintro ⟨hb, hr⟩
      exact h ⟨h1, hb ▸ hc, (canRemove_cols_iff b st i _).mp hr⟩
    simp only [this, if_false]
  · rw [if_neg h1]

theorem scan_cons_cases (b : board) (st : state) (i : Fin 5) (is : List (Fin 5)) (r : Bool) :
    (st i < len (b i) ∧ st i < 0 ∧ scan b (i :: is) st r = .panic) ∨
    (Eligible b st i ∧ scan b (i :: is) st r = scan b is (Function.update st i (st i + 1)) true) ∨
    (¬ Eligible b st i ∧ scan b (i :: is) st r = scan b is st r) := by
  by_cases he : Eligible b st i
  · exact Or.inr (Or.inl ⟨he, scan_cons_eligible is r he⟩)
  · by_cases h0 : st i < len (b i) → 0 ≤ st i
    · exact Or.inr (Or.inr ⟨he, scan_cons_not_eligible is r he h0⟩)
    · left
      have h1 : st i < len (b i) := by
        by_contra hc; exact h0 (fun h => absurd h hc)
      have h2 : st i < 0 := by
        by_contra hc; exact h0 (fun _ => by omega)
      refine ⟨h1, h2, ?_⟩
      rw [scan, if_pos h1]
      have : index (b i) (st i) = none := by
        unfold index; rw [if_pos h2]
      rw [this]

theorem remaining_update (b : board) (st : state) (i : Fin 5) (h : st i < len (b i)) :
    remaining b (Function.update st i (st i + 1)) + 1 = remaining b st := by
  unfold remaining cols
  fin_cases i <;> simp [Function.update] at h ⊢ <;> omega

theorem eligible_unique {b : board} {st : state} {i j : Fin 5}
    (hi : Eligible b st i) (hj : Eligible b st j) : i = j := by
  by_contra hne
  have h1 := hi.2.2 j (fun h => hne h.symm)
  have h2 := hj.2.2 i hne
  omega

theorem not_eligible_after {b : board} {st : state} {t i : Fin 5}
    (ht : Eligible b st t) (hne : i ≠ t) :
    ¬ Eligible b (Function.update st t (st t + 1)) i := by
  intro hi
  have h1 := ht.2.2 i hne
  have h2 := hi.2.2 t (fun h => hne h.symm)
  simp only [Function.update_same, Function.update_noteq hne] at h2
  omega

theorem scan_no_eligible (b : board) (st : state) (r : Bool) (l : List (Fin 5))
    (hne : ∀ i ∈ l, ¬ Eligible b st i) (h0 : ∀ i ∈ l, st i < len (b i) → 0 ≤ st i) :
    scan b l st r = .ret (st, r) := by
  induction l with
  | nil => rfl
  | cons i is ih =>
    rw [scan_cons_not_eligible is r (hne i (List.mem_cons_self _ _))
      (h0 i (List.mem_cons_self _ _))]
    exact ih (fun j hj => hne j (List.mem_cons_of_mem _ hj))
      (fun j hj => h0 j (List.mem_cons_of_mem _ hj))

theorem scan_eligible (b : board) (st : state) (t : Fin 5) (he : Eligible b st t)
    (l : List (Fin 5)) (r : Bool) (hnd : l.Nodup) (ht : t ∈ l)
    (h0 : ∀ i ∈ l, st i < len (b i) → 0 ≤ st i) :
    scan b l st r = .ret (Function.update st t (st t + 1), true) := by
  induction l generalizing r with
  | nil => simp at ht
  | cons i is ih =>
    rw [List.nodup_cons] at hnd
    by_cases hit : i = t
    · subst hit
      rw [scan_cons_eligible is r he]
      apply scan_no_eligible
      · intro j hj
        exact not_eligible_after he (fun h => hnd.1 (h ▸ hj))
      · intro j hj hlt
        have hji : j ≠ i := fun h => hnd.1 (h ▸ hj)
        rw [Function.update_noteq hji] at hlt ⊢
        exact h0 j (List.mem_cons_of_mem _ hj) hlt
    · have hni : ¬ Eligible b st i := fun hi => hit (eligible_unique hi he)
      rw [scan_cons_not_eligible is r hni (h0 i (List.mem_cons_self _ _))]
      have ht2 : t ∈ is := by
        rcases List.mem_cons.mp ht with h | h
        · exact absurd h.symm hit
        · exact h
      exact ih r hnd.2 ht2 (fun j hj => h0 j (List.mem_cons_of_mem _ hj))

/-- What a returning pass guarantees, for an arbitrary cursor. -/
theorem scan_ret_props (b : board) (l : List (Fin 5)) :
    ∀ (st : state) (r : Bool) (st2 : state) (r2 : Bool), scan b l st r = .ret (st2, r2) →
      (∀ i, st i ≤ st2 i) ∧ (∀ i, st2 i ≤ len (b i) ∨ st2 i = st i) ∧
      remaining b st2 + (if r2 then 1 else 0) ≤ remaining b st + (if r then 1 else 0) ∧
      (r = true → r2 = true) := by
  induction l with
  | nil =>
    intro st r st2 r2 h
    simp only [scan, Outcome.ret.injEq, Prod.mk.injEq] at h
    obtain ⟨rfl, rfl⟩ := h
    exact ⟨fun _ => le_refl _, fun _ => Or.inr rfl, le_refl _, fun h => h⟩
  | cons i is ih =>
    intro st r st2 r2 h
    rcases scan_cons_cases b st i is r with ⟨_, _, hp⟩ | ⟨he, hs⟩ | ⟨_, hs⟩
    · rw [hp] at h; exact absurd h (by simp)
    · rw [hs] at h
      obtain ⟨m1, m2, m3, m4⟩ := ih _ _ _ _ h
      have hrem := remaining_update b st i he.1
      refine ⟨?_, ?_, ?_, fun _ => m4 rfl⟩
      · intro j
        have := m1 j
        by_cases hji : j = i
        · subst hji; simp only [Function.update_same] at this; omega
        · simpa only [Function.update_noteq hji] using this
      · intro j
        have hm1 := m1 j
        have := m2 j
        by_cases hji : j = i
        · subst hji
          simp only [Function.update_same] at this hm1
          left
          have := he.1
          omega
        · simpa only [Function.update_noteq hji] using this
      · have h2 := m4 rfl
        subst h2
        simp only [if_true] at m3 ⊢
        omega
    · rw [hs] at h
      exact ih _ _ _ _ h

theorem scan_false_eq (b : board) (l : List (Fin 5)) :
    ∀ (st : state) (st2 : state), scan b l st false = .ret (st2, false) → st2 = st := by
  induction l with
  | nil =>
    intro st st2 h
    simp only [scan, Outcome.ret.injEq, Prod.mk.injEq] at h
    exact h.1.symm
  | cons i is ih =>
    intro st st2 h
    rcases scan_cons_cases b st i is false with ⟨_, _, hp⟩ | ⟨he, hs⟩ | ⟨_, hs⟩
    · rw [hp] at h; exact absurd h (by simp)
    · rw [hs] at h
      have := (scan_ret_props b is _ _ _ _ h).2.2.2 rfl
      simp at this
    · rw [hs] at h
      exact ih _ _ h

theorem scan_ne_fuel (b : board) (l : List (Fin 5)) :
    ∀ (st : state) (r : Bool), scan b l st r ≠ .fuel := by
  induction l with
  | nil => intro st r; simp [scan]
  | cons i is ih =>
    intro st r
    rcases scan_cons_cases b st i is r with ⟨_, _, hp⟩ | ⟨_, hs⟩ | ⟨_, hs⟩
    · rw [hp]; simp
    · rw [hs]; exact ih _ _
    · rw [hs]; exact ih _ _

theorem scan_nonneg_ret (b : board) (l : List (Fin 5)) :
    ∀ (st : state) (r : Bool), NonNeg st → ∃ x, scan b l st r = .ret x := by
  induction l with
  | nil => intro st r _; exact ⟨_, rfl⟩
  | cons i is ih =>
    intro st r hn
    rcases scan_cons_cases b st i is r with ⟨_, h0, _⟩ | ⟨_, hs⟩ | ⟨_, hs⟩
    · have := hn i; omega
    · rw [hs]
      apply ih
      intro j
      by_cases hji : j = i
      · subst hji; simp only [Function.update_same]; have := hn j; omega
      · simp only [Function.update_noteq hji]; exact hn j
    · rw [hs]; exact ih _ _ hn

theorem collapse_ret_props (b : board) (n : Nat) :
    ∀ (st st2 : state), collapse b n st = .ret st2 →
      (∀ i, st i ≤ st2 i) ∧ (∀ i, st2 i ≤ len (b i) ∨ st2 i = st i) ∧
      remaining b st2 ≤ remaining b st := by
  induction n with
  | zero => intro st st2 h; simp [collapse] at h
  | succ n ih =>
    intro st st2 h
    rw [collapse] at h
    split at h
    · rename_i st1 hs
      obtain ⟨m1, m2, m3⟩ := ih _ _ h
      obtain ⟨s1, s2, s3, _⟩ := scan_ret_props b cols _ _ _ _ hs
      refine ⟨fun i => le_trans (s1 i) (m1 i), ?_, ?_⟩
      · intro i
        rcases m2 i with h1 | h1
        · exact Or.inl h1
        · rw [h1]; exact s2 i
      · simp at s3; omega
    · rename_i st1 hs
      simp only [Outcome.ret.injEq] at h
      subst h
      obtain ⟨s1, s2, s3, _⟩ := scan_ret_props b cols _ _ _ _ hs
      exact ⟨s1, s2, by simpa using s3⟩
    · simp at h
    · simp at h

theorem collapse_ne_fuel (b : board) (n : Nat) :
    ∀ (st : state), remaining b st < n → collapse b n st ≠ .fuel := by
  induction n with
  | zero => intro st h; omega
  | succ n ih =>
    intro st hlt
    rw [collapse]
    split
    · rename_i st1 hs
      have := (scan_ret_props b cols _ _ _ _ hs).2.2.1
      simp at this
      exact ih _ (by omega)
    · simp
    · simp
    · rename_i hs
      exact absurd hs (scan_ne_fuel b cols _ _)

theorem collapse_nonneg_ret (b : board) (n : Nat) :
    ∀ (st : state), NonNeg st → remaining b st < n → ∃ st2, collapse b n st = .ret st2 := by
  induction n with
  | zero => intro st _ h; omega
  | succ n ih =>
    intro st hn hlt
    obtain ⟨⟨st1, r1⟩, hs⟩ := scan_nonneg_ret b cols st false hn
    obtain ⟨s1, _, s3, _⟩ := scan_ret_props b cols _ _ _ _ hs
    rw [collapse, hs]
    cases r1 with
    | true =>
      simp at s3
      exact ih st1 (fun i => le_trans (hn i) (s1 i)) (by omega)
    | false => exact ⟨st1, rfl⟩

theorem advance_colInt (b : board) (st : state) (i : Fin 5) :
    advance b st (colInt i) =
      if st i ≥ len (b i) then .ret (0, st, false)
      else
        match index (b i) (st i) with
        | none => .panic
        | some c =>
          match collapse b (remaining b (Function.update st i (st i + 1)) + 1)
              (Function.update st i (st i + 1)) with
          | .ret st2 => .ret (c, st2, true)
          | .panic => .panic
          | .fuel => .fuel := by
  unfold advance
  rw [toCol_colInt]

theorem advance_of_ge {b : board} {st : state} {i : Fin 5} (h : len (b i) ≤ st i) :
    advance b st (colInt i) = .ret (0, st, false) := by
  rw [advance_colInt, if_pos h]

theorem advance_of_collapse {b : board} {st st2 : state} {i : Fin 5} {c : color}
    (h1 : st i < len (b i)) (h2 : index (b i) (st i) = some c)
    (h3 : collapse b (remaining b (Function.update st i (st i + 1)) + 1)
      (Function.update st i (st i + 1)) = .ret st2) :
    advance b st (colInt i) = .ret (c, st2, true) := by
  rw [advance_colInt, if_neg (by omega), h2]
  simp only [h3]

theorem advance_ok {b : board} {st st2 : state} {i : Fin 5} {c : color}
    (h : advance b st (colInt i) = .ret (c, st2, true)) :
    st i < len (b i) ∧ index (b i) (st i) = some c ∧
      collapse b (remaining b (Function.update st i (st i + 1)) + 1)
        (Function.update st i (st i + 1)) = .ret st2 := by
  rw [advance_colInt] at h
  split at h
  · simp at h
  · rename_i hlt
    split at h
    · simp at h
    · rename_i c1 hc
      split at h
      · rename_i st3 hcol
        simp only [Outcome.ret.injEq, Prod.mk.injEq, and_true] at h
        obtain ⟨rfl, rfl⟩ := h
        exact ⟨by omega, hc, hcol⟩
      · simp at h
      · simp at h

theorem advance_fail {b : board} {st st2 : state} {i : Fin 5} {c : color}
    (h : advance b st (colInt i) = .ret (c, st2, false)) :
    len (b i) ≤ st i ∧ c = 0 ∧ st2 = st := by
  rw [advance_colInt] at h
  split at h
  · rename_i hge
    simp only [Outcome.ret.injEq, Prod.mk.injEq, and_true] at h
    exact ⟨hge, h.1.symm, h.2.symm⟩
  · split at h
    · simp at h
    · split at h <;> simp at h

theorem advance_col {b : board} {st : state} {col : Int} {x : color × state × Bool}
    (h : advance b st col = .ret x) : ∃ i, col = colInt i := by
  unfold advance at h
  split at h
  · simp at h
  · rename_i i hi
    exact ⟨i, toCol_eq_some hi⟩

theorem advance_ne_fuel (b : board) (st : state) (col : Int) : advance b st col ≠ .fuel := by
  cases hc : toCol col with
  | none => unfold advance; rw [hc]; simp
  | some i =>
    rw [toCol_eq_some hc, advance_colInt]
    split
    · simp
    · split
      · simp
      · split
        · simp
        · simp
        · rename_i hf
          exact absurd hf (collapse_ne_fuel b _ _ (Nat.lt_succ_self _))

theorem advance_mono {b : board} {st st2 : state} {i : Fin 5} {c : color}
    (h : advance b st (colInt i) = .ret (c, st2, true)) :
    (∀ j, st j ≤ st2 j) ∧ st i + 1 ≤ st2 i ∧ (∀ j, st2 j ≤ len (b j) ∨ st2 j = st j) ∧
      remaining b st2 < remaining b st := by
  obtain ⟨h1, _, h3⟩ := advance_ok h
  obtain ⟨m1, m2, m3⟩ := collapse_ret_props b _ _ _ h3
  have hrem := remaining_update b st i h1
  refine ⟨?_, ?_, ?_, by omega⟩
  · intro j
    have := m1 j
    by_cases hji : j = i
    · subst hji; simp only [Function.update_same] at this; omega
    · simpa only [Function.update_noteq hji] using this
  · simpa only [Function.update_same] using m1 i
  · intro j
    have := m2 j
    by_cases hji : j = i
    · subst hji; simp only [Function.update_same] at this; left; omega
    · simpa only [Function.update_noteq hji] using this

theorem advance_nonneg {b : board} {st : state} (hn : NonNeg st) (i : Fin 5) :
    ∃ c st2 ok, advance b st (colInt i) = .ret (c, st2, ok) ∧ NonNeg st2 := by
  by_cases hge : len (b i) ≤ st i
  · exact ⟨0, st, false, advance_of_ge hge, hn⟩
  · have hlt : st i < len (b i) := by omega
    obtain ⟨c, hc⟩ := index_isSome (hn i) hlt
    have hn1 : NonNeg (Function.update st i (st i + 1)) := by
      intro j
      by_cases hji : j = i
      · subst hji; simp only [Function.update_same]; have := hn j; omega
      · simp only [Function.update_noteq hji]; exact hn j
    obtain ⟨st2, h2⟩ := collapse_nonneg_ret b _ _ hn1 (Nat.lt_succ_self _)
    have ha := advance_of_collapse hlt hc h2
    exact ⟨c, st2, true, ha, fun j => le_trans (hn j) ((advance_mono ha).1 j)⟩

/-! ### Loops with early exit -/

theorem forCols_none {α : Type} {f : Fin 5 → Outcome (Option α)} {l : List (Fin 5)}
    (h : forCols f l = .ret none) : ∀ i ∈ l, f i = .ret none := by
  induction l with
  | nil => intro i hi; simp at hi
  | cons a as ih =>
    rw [forCols] at h
    split at h
    · rename_i hfa
      intro i hi
      rcases List.mem_cons.mp hi with rfl | hi
      · exact hfa
      · exact ih h i hi
    · rename_i hne
      exact absurd h (hne)

theorem forCols_some {α : Type} {f : Fin 5 → Outcome (Option α)} {l : List (Fin 5)} {x : α}
    (h : forCols f l = .ret (some x)) :
    ∃ pre i post, l = pre ++ i :: post ∧ f i = .ret (some x) ∧ ∀ j ∈ pre, f j = .ret none := by
  induction l with
  | nil => simp [forCols] at h
  | cons a as ih =>
    rw [forCols] at h
    split at h
    · rename_i hfa
      obtain ⟨pre, i, post, hl, hfi, hpre⟩ := ih h
      refine ⟨a :: pre, i, post, by rw [hl]; rfl, hfi, ?_⟩
      intro j hj
      rcases List.mem_cons.mp hj with rfl | hj
      · exact hfa
      · exact hpre j hj
    · exact ⟨[], a, as, rfl, h, fun j hj => by simp at hj⟩

theorem forCols_cols_some {α : Type} {f : Fin 5 → Outcome (Option α)} {x : α}
    (h : forCols f cols = .ret (some x)) :
    ∃ i, f i = .ret (some x) ∧ ∀ j, j < i → f j = .ret none := by
  obtain ⟨pre, i, post, hl, hfi, hpre⟩ := forCols_some h
  refine ⟨i, hfi, fun j hj => hpre j ?_⟩
  have hmem : j ∈ pre ++ i :: post := hl ▸ cols_complete j
  rcases List.mem_append.mp hmem with hm | hm
  · exact hm
  · exfalso
    have hs := cols_sorted
    rw [hl, List.pairwise_append] at hs
    rcases List.mem_cons.mp hm with rfl | hm
    · exact lt_irrefl _ hj
    · have := (List.pairwise_cons.mp hs.2.1).1 j hm
      exact lt_irrefl _ (lt_trans hj this)

theorem forCols_cols_none {α : Type} {f : Fin 5 → Outcome (Option α)}
    (h : forCols f cols = .ret none) (i : Fin 5) : f i = .ret none :=
  forCols_none h i (cols_complete i)

theorem forCols_ret {α : Type} {f : Fin 5 → Outcome (Option α)} (l : List (Fin 5))
    (h : ∀ i ∈ l, ∃ r, f i = .ret r) : ∃ r, forCols f l = .ret r := by
  induction l with
  | nil => exact ⟨none, rfl⟩
  | cons a as ih =>
    obtain ⟨r, hr⟩ := h a (List.mem_cons_self _ _)
    rw [forCols]
    cases r with
    | none =>
      rw [hr]
      exact ih (fun i hi => h i (List.mem_cons_of_mem _ hi))
    | some x =>
      rw [hr]
      exact ⟨some x, rfl⟩

theorem forCols_ne_fuel {α : Type} {f : Fin 5 → Outcome (Option α)} (l : List (Fin 5))
    (h : ∀ i ∈ l, f i ≠ .fuel) : forCols f l ≠ .fuel := by
  induction l with
  | nil => simp [forCols]
  | cons a as ih =>
    rw [forCols]
    split
    · exact ih (fun i hi => h i (List.mem_cons_of_mem _ hi))
    · exact h a (List.mem_cons_self _ _)

theorem solveK_some {rec : state → Outcome (List triple × Bool)} {b : board} {c : color}
    {i j k : Fin 5} {st2 : state} {x : List triple}
    (h : solveK rec b c i j st2 k = .ret (some x)) :
    ∃ st3 soln, advance b st2 (colInt k) = .ret (c, st3, true) ∧
      rec st3 = .ret (soln, true) ∧ x = mkTriple i j k c :: soln := by
  unfold solveK at h
  split at h
  · rename_i c3 st3 ok ha
    cases ok with
    | false => simp at h
    | true =>
      by_cases hc : c3 = c
      · subst hc
        simp only [Bool.not_true, Bool.false_eq_true, if_false, ne_eq, not_true_eq_false] at h
        split at h
        · rename_i soln hr
          simp only [Outcome.ret.injEq, Option.some.injEq] at h
          exact ⟨st3, soln, ha, hr, h.symm⟩
        · simp at h
        · simp at h
        · simp at h
      · simp [hc] at h
  · simp at h
  · simp at h

theorem solveK_none {rec : state → Outcome (List triple × Bool)} {b : board} {c : color}
    {i j k : Fin 5} {st2 st3 : state}
    (h : solveK rec b c i j st2 k = .ret none)
    (ha : advance b st2 (colInt k) = .ret (c, st3, true)) :
    ∃ s, rec st3 = .ret (s, false) := by
  unfold solveK at h
  rw [ha] at h
  simp only [Bool.not_true, Bool.false_eq_true, if_false, ne_eq, not_true_eq_false] at h
  split at h
  · simp at h
  · rename_i s hr
    exact ⟨s, hr⟩
  · simp at h
  · simp at h

theorem solveJ_some {rec : state → Outcome (List triple × Bool)} {b : board} {c : color}
    {i j : Fin 5} {st1 : state} {x : List triple}
    (h : solveJ rec b c i st1 j = .ret (some x)) :
    ∃ st2, advance b st1 (colInt j) = .ret (c, st2, true) ∧
      forCols (solveK rec b c i j st2) cols = .ret (some x) := by
  unfold solveJ at h
  split at h
  · rename_i c2 st2 ok ha
    cases ok with
    | false => simp at h
    | true =>
      by_cases hc : c2 = c
      · subst hc
        simp only [Bool.not_true, Bool.false_eq_true, if_false, ne_eq, not_true_eq_false] at h
        exact ⟨st2, ha, h⟩
      · simp [hc] at h
  · simp at h
  · simp at h

theorem solveJ_none {rec : state → Outcome (List triple × Bool)} {b : board} {c : color}
    {i j : Fin 5} {st1 st2 : state}
    (h : solveJ rec b c i st1 j = .ret none)
    (ha : advance b st1 (colInt j) = .ret (c, st2, true)) :
    forCols (solveK rec b c i j st2) cols = .ret none := by
  unfold solveJ at h
  rw [ha] at h
  simpa only [Bool.not_true, Bool.false_eq_true, if_false, ne_eq, not_true_eq_false] using h

theorem solveI_some {rec : state → Outcome (List triple × Bool)} {b : board}
    {i : Fin 5} {st : state} {x : List triple}
    (h : solveI rec b st i = .ret (some x)) :
    ∃ c st1, advance b st (colInt i) = .ret (c, st1, true) ∧ c ≠ black ∧
      forCols (solveJ rec b c i st1) cols = .ret (some x) := by
  unfold solveI at h
  split at h
  · rename_i c1 st1 ok ha
    cases ok with
    | false => simp at h
    | true =>
      by_cases hc : c1 = black
      · simp [hc] at h
      · simp only [Bool.not_true, Bool.false_eq_true, if_false, hc] at h
        exact ⟨c1, st1, ha, hc, h⟩
  · simp at h
  · simp at h

theorem solveI_none {rec : state → Outcome (List triple × Bool)} {b : board}
    {i : Fin 5} {st st1 : state} {c : color}
    (h : solveI rec b st i = .ret none)
    (ha : advance b st (colInt i) = .ret (c, st1, true)) (hc : c ≠ black) :
    forCols (solveJ rec b c i st1) cols = .ret none := by
  unfold solveI at h
  rw [ha] at h
  simpa only [Bool.not_true, Bool.false_eq_true, if_false, hc] using h

/-- When the outer loop runs through, every same-colour triple of moves was tried and its
recursive call reported failure. -/
theorem loops_none {rec : state → Outcome (List triple × Bool)} {b : board} {st : state}
    (h : forCols (solveI rec b st) cols = .ret none)
    {i j k : Fin 5} {c : color} {st3 : state} (hs : Step3 b st i j k c st3) :
    ∃ s, rec st3 = .ret (s, false) := by
  obtain ⟨st1, st2, h1, h2, h3, hc⟩ := hs
  have hj := solveI_none (forCols_cols_none h i) h1 hc
  have hk := solveJ_none (forCols_cols_none hj j) h2
  exact solveK_none (forCols_cols_none hk k) h3

/-- When the outer loop leaves with a solution, it is the first triple in enumeration order
whose recursive call succeeds, followed by that call's solution. -/
theorem loops_some {rec : state → Outcome (List triple × Bool)} {b : board} {st : state}
    {x : List triple} (h : forCols (solveI rec b st) cols = .ret (some x)) :
    ∃ i j k c st3 soln, Step3 b st i j k c st3 ∧ rec st3 = .ret (soln, true) ∧
      x = mkTriple i j k c :: soln ∧
      ∀ i2 j2 k2 c2 st4, Before i2 j2 k2 i j k → Step3 b st i2 j2 k2 c2 st4 →
        ∃ s, rec st4 = .ret (s, false) := by
  obtain ⟨i, hi, hiB⟩ := forCols_cols_some h
  obtain ⟨c, st1, h1, hc, hJ⟩ := solveI_some hi
  obtain ⟨j, hj, hjB⟩ := forCols_cols_some hJ
  obtain ⟨st2, h2, hK⟩ := solveJ_some hj
  obtain ⟨k, hk, hkB⟩ := forCols_cols_some hK
  obtain ⟨st3, soln, h3, hr, hx⟩ := solveK_some hk
  refine ⟨i, j, k, c, st3, soln, ⟨st1, st2, h1, h2, h3, hc⟩, hr, hx, ?_⟩
  rintro i2 j2 k2 c2 st4 hB ⟨s1, s2, g1, g2, g3, gc⟩
  rcases hB with hlt | ⟨rfl, hB⟩
  · have hj2 := solveI_none (hiB i2 hlt) g1 gc
    have hk2 := solveJ_none (forCols_cols_none hj2 j2) g2
    exact solveK_none (forCols_cols_none hk2 k2) g3
  · rw [h1] at g1
    simp only [Outcome.ret.injEq, Prod.mk.injEq, and_true] at g1
    obtain ⟨rfl, rfl⟩ := g1
    rcases hB with hlt | ⟨rfl, hlt⟩
    · have hk2 := solveJ_none (hjB j2 hlt) g2
      exact solveK_none (forCols_cols_none hk2 k2) g3
    · rw [h2] at g2
      simp only [Outcome.ret.injEq, Prod.mk.injEq, and_true, true_and] at g2
      subst g2
      exact solveK_none (hkB k2 hlt) g3

theorem solveFuel_true {n : Nat} {b : board} {st : state} {soln : List triple}
    (h : solveFuel (n + 1) b st = .ret (soln, true)) :
    (empty b st = true ∧ soln = []) ∨
    (empty b st = false ∧ ∃ i j k c st3 rest, Step3 b st i j k c st3 ∧
      solveFuel n b st3 = .ret (rest, true) ∧ soln = mkTriple i j k c :: rest ∧
      ∀ i2 j2 k2 c2 st4, Before i2 j2 k2 i j k → Step3 b st i2 j2 k2 c2 st4 →
        ∃ s, solveFuel n b st4 = .ret (s, false)) := by
  rw [solveFuel] at h
  by_cases he : empty b st = true
  · rw [if_pos he] at h
    simp only [Outcome.ret.injEq, Prod.mk.injEq, and_true] at h
    exact Or.inl ⟨he, h.symm⟩
  · rw [if_neg he] at h
    right
    refine ⟨by simpa using he, ?_⟩
    split at h
    · rename_i x hx
      simp only [Outcome.ret.injEq, Prod.mk.injEq, and_true] at h
      subst h
      exact loops_some hx
    · simp at h
    · simp at h
    · simp at h

theorem solveFuel_false {n : Nat} {b : board} {st : state} {soln : List triple}
    (h : solveFuel (n + 1) b st = .ret (soln, false)) :
    soln = [] ∧ empty b st = false ∧
      ∀ i j k c st3, Step3 b st i j k c st3 → ∃ s, solveFuel n b st3 = .ret (s, false) := by
  rw [solveFuel] at h
  by_cases he : empty b st = true
  · rw [if_pos he] at h
    simp at h
  · rw [if_neg he] at h
    split at h
    · simp at h
    · rename_i hx
      simp only [Outcome.ret.injEq, Prod.mk.injEq, and_true] at h
      exact ⟨h.symm, by simpa using he, fun i j k c st3 hs => loops_none hx hs⟩
    · simp at h
    · simp at h

theorem step3_tripleStep {b : board} {st st3 : state} {i j k : Fin 5} {c : color}
    (h : Step3 b st i j k c st3) : TripleStep b st (mkTriple i j k c) st3 := by
  obtain ⟨st1, st2, h1, h2, h3, hc⟩ := h
  exact ⟨st1, st2, h1, h2, h3, hc, rfl, rfl⟩

theorem tripleStep_step3 {b : board} {st st3 : state} {t : triple}
    (h : TripleStep b st t st3) :
    ∃ i j k c, t = mkTriple i j k c ∧ Step3 b st i j k c st3 := by
  obtain ⟨st1, st2, h1, h2, h3, hc, e1, e2⟩ := h
  obtain ⟨i, hi⟩ := advance_col h1
  obtain ⟨j, hj⟩ := advance_col h2
  obtain ⟨k, hk⟩ := advance_col h3
  obtain ⟨⟨c0, a0⟩, ⟨c1, a1⟩, ⟨c2, a2⟩⟩ := t
  simp only at h1 h2 h3 hc e1 e2 hi hj hk
  subst hi hj hk e1 e2
  exact ⟨i, j, k, _, rfl, st1, st2, h1, h2, h3, hc⟩

theorem step3_remaining {b : board} {st st3 : state} {i j k : Fin 5} {c : color}
    (h : Step3 b st i j k c st3) : remaining b st3 + 3 ≤ remaining b st := by
  obtain ⟨st1, st2, h1, h2, h3, _⟩ := h
  have := (advance_mono h1).2.2.2
  have := (advance_mono h2).2.2.2
  have := (advance_mono h3).2.2.2
  omega

theorem not_step3_of_empty {b : board} {st st3 : state} {i j k : Fin 5} {c : color}
    (he : empty b st = true) : ¬ Step3 b st i j k c st3 := by
  rintro ⟨st1, st2, h1, _⟩
  have := (advance_ok h1).1
  have := (empty_iff b st).mp he i
  omega

theorem solveFuel_sound (b : board) (n : Nat) :
    ∀ (st : state) (soln : List triple),
      solveFuel n b st = .ret (soln, true) → Clears b st soln := by
  induction n with
  | zero => intro st soln h; simp [solveFuel] at h
  | succ n ih =>
    intro st soln h
    rcases solveFuel_true h with ⟨he, rfl⟩ | ⟨_, i, j, k, c, st3, rest, hs, hr, rfl, _⟩
    · exact Clears.done he
    · exact Clears.step (step3_tripleStep hs) (ih st3 rest hr)

theorem solveFuel_fail_sound (b : board) (n : Nat) :
    ∀ (st : state) (s ts : List triple),
      solveFuel n b st = .ret (s, false) → ¬ Clears b st ts := by
  induction n with
  | zero => intro st s ts h; simp [solveFuel] at h
  | succ n ih =>
    intro st s ts h hcl
    obtain ⟨_, he, hall⟩ := solveFuel_false h
    cases hcl with
    | done he2 => rw [he2] at he; exact absurd he (by simp)
    | step hstep hrest =>
      obtain ⟨i, j, k, c, _, hs⟩ := tripleStep_step3 hstep
      obtain ⟨s2, hs2⟩ := hall i j k c _ hs
      exact ih _ s2 _ hs2 hrest

theorem solveK_ret {rec : state → Outcome (List triple × Bool)} {b : board} {c : color}
    {i j k : Fin 5} {st2 : state} (hn : NonNeg st2)
    (hrec : ∀ st3, NonNeg st3 → remaining b st3 < remaining b st2 → ∃ r, rec st3 = .ret r) :
    ∃ r, solveK rec b c i j st2 k = .ret r := by
  obtain ⟨c3, st3, ok, ha, hn3⟩ := advance_nonneg (b := b) hn k
  unfold solveK
  rw [ha]
  cases ok with
  | false => exact ⟨none, by simp⟩
  | true =>
    by_cases hc : c3 = c
    · obtain ⟨⟨s, r⟩, hr⟩ := hrec st3 hn3 (advance_mono ha).2.2.2
      cases r with
      | true => exact ⟨some (mkTriple i j k c :: s), by simp [hc, hr, mkTriple]⟩
      | false => exact ⟨none, by simp [hc, hr]⟩
    · exact ⟨none, by simp [hc]⟩

theorem solveJ_ret {rec : state → Outcome (List triple × Bool)} {b : board} {c : color}
    {i j : Fin 5} {st1 : state} (hn : NonNeg st1)
    (hrec : ∀ st3, NonNeg st3 → remaining b st3 < remaining b st1 → ∃ r, rec st3 = .ret r) :
    ∃ r, solveJ rec b c i st1 j = .ret r := by
  obtain ⟨c2, st2, ok, ha, hn2⟩ := advance_nonneg (b := b) hn j
  unfold solveJ
  rw [ha]
  cases ok with
  | false => exact ⟨none, by simp⟩
  | true =>
    by_cases hc : c2 = c
    · have hlt := (advance_mono ha).2.2.2
      obtain ⟨r, hr⟩ := forCols_ret (f := solveK rec b c i j st2) cols
        (fun k _ => solveK_ret hn2 (fun st3 h3 hl => hrec st3 h3 (by omega)))
      exact ⟨r, by simp [hc, hr]⟩
    · exact ⟨none, by simp [hc]⟩

theorem solveI_ret {rec : state → Outcome (List triple × Bool)} {b : board}
    {i : Fin 5} {st : state} (hn : NonNeg st)
    (hrec : ∀ st3, NonNeg st3 → remaining b st3 < remaining b st → ∃ r, rec st3 = .ret r) :
    ∃ r, solveI rec b st i = .ret r := by
  obtain ⟨c1, st1, ok, ha, hn1⟩ := advance_nonneg (b := b) hn i
  unfold solveI
  rw [ha]
  cases ok with
  | false => exact ⟨none, by simp⟩
  | true =>
    by_cases hc : c1 = black
    · exact ⟨none, by simp [hc]⟩
    · have hlt := (advance_mono ha).2.2.2
      obtain ⟨r, hr⟩ := forCols_ret (f := solveJ rec b c1 i st1) cols
        (fun j _ => solveJ_ret hn1 (fun st3 h3 hl => hrec st3 h3 (by omega)))
      exact ⟨r, by simp [hc, hr]⟩

theorem solveFuel_ret (b : board) (n : Nat) :
    ∀ (st : state), NonNeg st → remaining b st < n → ∃ r, solveFuel n b st = .ret r := by
  induction n with
  | zero => intro st _ h; omega
  | succ n ih =>
    intro st hn hlt
    rw [solveFuel]
    by_cases he : empty b st = true
    · rw [if_pos he]; exact ⟨_, rfl⟩
    · rw [if_neg he]
      obtain ⟨r, hr⟩ := forCols_ret (f := solveI (solveFuel n b) b st) cols
        (fun i _ => solveI_ret hn (fun st3 h3 hl => ih st3 h3 (by omega)))
      rw [hr]
      cases r with
      | none => exact ⟨_, rfl⟩
      | some x => exact ⟨_, rfl⟩

theorem solveK_ne_fuel {rec : state → Outcome (List triple × Bool)} {b : board} {c : color}
    {i j k : Fin 5} {st2 : state}
    (hrec : ∀ st3, remaining b st3 < remaining b st2 → rec st3 ≠ .fuel) :
    solveK rec b c i j st2 k ≠ .fuel := by
  unfold solveK
  split
  · rename_i c3 st3 ok ha
    cases ok with
    | false => simp
    | true =>
      have := hrec st3 (advance_mono ha).2.2.2
      by_cases hc : c3 = c
      · simp only [Bool.not_true, Bool.false_eq_true, if_false, ne_eq, hc, not_true_eq_false]
        split <;> simp_all
      · simp [hc]
  · simp
  · rename_i hf; exact absurd hf (advance_ne_fuel _ _ _)

theorem solveJ_ne_fuel {rec : state → Outcome (List triple × Bool)} {b : board} {c : color}
    {i j : Fin 5} {st1 : state}
    (hrec : ∀ st3, remaining b st3 < remaining b st1 → rec st3 ≠ .fuel) :
    solveJ rec b c i st1 j ≠ .fuel := by
  unfold solveJ
  split
  · rename_i c2 st2 ok ha
    cases ok with
    | false => simp
    | true =>
      have hlt := (advance_mono ha).2.2.2
      by_cases hc : c2 = c
      · simp only [Bool.not_true, Bool.false_eq_true, if_false, ne_eq, hc, not_true_eq_false]
        exact forCols_ne_fuel cols
          (fun k _ => solveK_ne_fuel (fun st3 hl => hrec st3 (by omega)))
      · simp [hc]
  · simp
  · rename_i hf; exact absurd hf (advance_ne_fuel _ _ _)

theorem solveI_ne_fuel {rec : state → Outcome (List triple × Bool)} {b : board}
    {i : Fin 5} {st : state}
    (hrec : ∀ st3, remaining b st3 < remaining b st → rec st3 ≠ .fuel) :
    solveI rec b st i ≠ .fuel := by
  unfold solveI
  split
  · rename_i c1 st1 ok ha
    cases ok with
    | false => simp
    | true =>
      have hlt := (advance_mono ha).2.2.2
      by_cases hc : c1 = black
      · simp [hc]
      · simp only [Bool.not_true, Bool.false_eq_true, if_false, hc]
        exact forCols_ne_fuel cols
          (fun j _ => solveJ_ne_fuel (fun st3 hl => hrec st3 (by omega)))
  · simp
  · rename_i hf; exact absurd hf (advance_ne_fuel _ _ _)

theorem solveFuel_ne_fuel (b : board) (n : Nat) :
    ∀ (st : state), remaining b st < n → solveFuel n b st ≠ .fuel := by
  induction n with
  | zero => intro st h; omega
  | succ n ih =>
    intro st hlt
    rw [solveFuel]
    split
    · simp
    · have := forCols_ne_fuel (f := solveI (solveFuel n b) b st) cols
        (fun i _ => solveI_ne_fuel (fun st3 hl => ih st3 (by omega)))
      split <;> simp_all

theorem clears_replay {b : board} {st : state} {ts : List triple} (h : Clears b st ts) :
    ∃ stf, replay b st (movesOf ts) = some stf ∧ empty b stf = true := by
  induction h with
  | done he => exact ⟨_, rfl, he⟩
  | step hstep _ ih =>
    obtain ⟨stf, hr, he⟩ := ih
    obtain ⟨st1, st2, h1, h2, h3, _, _, _⟩ := hstep
    refine ⟨stf, ?_, he⟩
    simp only [movesOf, triple.moves, List.cons_append, List.nil_append, replay, h1, h2, h3,
      if_true]
    exact hr

theorem clears_shape {b : board} {st : state} {ts : List triple} (h : Clears b st ts) :
    ∀ t ∈ ts, ∃ i j k c, t = mkTriple i j k c ∧ c ≠ black := by
  induction h with
  | done _ => intro t ht; simp at ht
  | step hstep _ ih =>
    intro t ht
    rcases List.mem_cons.mp ht with rfl | ht
    · obtain ⟨i, j, k, c, ht, _, _, _, _, _, hc⟩ := tripleStep_step3 hstep
      exact ⟨i, j, k, c, ht, hc⟩
    · exact ih t ht

theorem colsOf_cons (i j k : Fin 5) (c : color) (ts : List triple) :
    colsOf (mkTriple i j k c :: ts) = colInt i :: colInt j :: colInt k :: colsOf ts := rfl

theorem before_trichotomy (i j k i2 j2 k2 : Fin 5) :
    Before i j k i2 j2 k2 ∨ (i = i2 ∧ j = j2 ∧ k = k2) ∨ Before i2 j2 k2 i j k := by
  unfold Before
  rcases lt_trichotomy i i2 with h | h | h
  · exact Or.inl (Or.inl h)
  · rcases lt_trichotomy j j2 with g | g | g
    · exact Or.inl (Or.inr ⟨h, Or.inl g⟩)
    · rcases lt_trichotomy k k2 with f | f | f
      · exact Or.inl (Or.inr ⟨h, Or.inr ⟨g, f⟩⟩)
      · exact Or.inr (Or.inl ⟨h, g, f⟩)
      · exact Or.inr (Or.inr (Or.inr ⟨h.symm, Or.inr ⟨g.symm, f⟩⟩))
    · exact Or.inr (Or.inr (Or.inr ⟨h.symm, Or.inl g⟩))
  · exact Or.inr (Or.inr (Or.inl h))

theorem before_lex {i j k i2 j2 k2 : Fin 5} (h : Before i j k i2 j2 k2) (l l2 : List Int) :
    List.Lex (fun x y => x < y) (colInt i :: colInt j :: colInt k :: l)
      (colInt i2 :: colInt j2 :: colInt k2 :: l2) := by
  rcases h with h | ⟨rfl, h | ⟨rfl, h⟩⟩
  · exact List.Lex.rel (colInt_lt_iff.mpr h)
  · exact List.Lex.cons (List.Lex.rel (colInt_lt_iff.mpr h))
  · exact List.Lex.cons (List.Lex.cons (List.Lex.rel (colInt_lt_iff.mpr h)))

theorem step3_det {b : board} {st st3 st4 : state} {i j k : Fin 5} {c c2 : color}
    (h : Step3 b st i j k c st3) (h2 : Step3 b st i j k c2 st4) : c = c2 ∧ st3 = st4 := by
  obtain ⟨s1, s2, a1, a2, a3, _⟩ := h
  obtain ⟨t1, t2, g1, g2, g3, _⟩ := h2
  rw [a1] at g1
  simp only [Outcome.ret.injEq, Prod.mk.injEq, and_true] at g1
  obtain ⟨rfl, rfl⟩ := g1
  rw [a2] at g2
  simp only [Outcome.ret.injEq, Prod.mk.injEq, and_true, true_and] at g2
  subst g2
  rw [a3] at g3
  simp only [Outcome.ret.injEq, Prod.mk.injEq, and_true, true_and] at g3
  exact ⟨rfl, g3⟩

theorem solveFuel_lex_min (b : board) (n : Nat) :
    ∀ (st : state) (soln ts : List triple),
      solveFuel n b st = .ret (soln, true) → Clears b st ts →
        colsOf soln = colsOf ts ∨ List.Lex (fun x y => x < y) (colsOf soln) (colsOf ts) := by
  induction n with
  | zero => intro st soln ts h; simp [solveFuel] at h
  | succ n ih =>
    intro st soln ts h hcl
    rcases solveFuel_true h with ⟨he, rfl⟩ | ⟨he, i, j, k, c, st3, rest, hs, hr, rfl, hmin⟩
    · cases hcl with
      | done _ => exact Or.inl rfl
      | step hstep _ =>
        obtain ⟨_, _, _, _, _, hs⟩ := tripleStep_step3 hstep
        exact absurd hs (not_step3_of_empty he)
    · cases hcl with
      | done he2 => rw [he2] at he; exact absurd he (by simp)
      | step hstep hrest =>
        obtain ⟨i2, j2, k2, c2, rfl, hs2⟩ := tripleStep_step3 hstep
        rw [colsOf_cons, colsOf_cons]
        rcases before_trichotomy i j k i2 j2 k2 with hB | ⟨rfl, rfl, rfl⟩ | hB
        · exact Or.inr (before_lex hB _ _)
        · obtain ⟨rfl, rfl⟩ := step3_det hs hs2
          rcases ih _ _ _ hr hrest with heq | hlex
          · exact Or.inl (by rw [heq])
          · exact Or.inr (List.Lex.cons (List.Lex.cons (List.Lex.cons hlex)))
        · obtain ⟨s, hsf⟩ := hmin _ _ _ _ _ hB hs2
          exact absurd hrest (solveFuel_fail_sound b n _ s _ hsf)

theorem nonNeg_start : NonNeg start := fun _ => le_refl _

theorem valid_start (b : board) : Valid b start := by
  intro i
  unfold start len
  omega

theorem valid_nonNeg {b : board} {st : state} (h : Valid b st) : NonNeg st :=
  fun i => (h i).1

theorem advance_valid {b : board} {st : state} (hv : Valid b st) (i : Fin 5) :
    ∃ c st2 ok, advance b st (colInt i) = .ret (c, st2, ok) ∧ Valid b st2 := by
  obtain ⟨c, st2, ok, ha, hn⟩ := advance_nonneg (b := b) (valid_nonNeg hv) i
  refine ⟨c, st2, ok, ha, fun j => ⟨hn j, ?_⟩⟩
  cases ok with
  | false => rw [(advance_fail ha).2.2]; exact (hv j).2
  | true =>
    rcases (advance_mono ha).2.2.1 j with h | h
    · exact h
    · rw [h]; exact (hv j).2

theorem collapse_no_eligible {b : board} {st : state} (n : Nat) (hn : NonNeg st)
    (h : ∀ i, ¬ Eligible b st i) : collapse b (n + 1) st = .ret st := by
  rw [collapse, scan_no_eligible b st false cols (fun i _ => h i) (fun i _ _ => hn i)]

theorem collapse_eligible {b : board} {st : state} {t : Fin 5} (n : Nat) (hn : NonNeg st)
    (h : Eligible b st t) :
    collapse b (n + 1) st = collapse b n (Function.update st t (st t + 1)) := by
  rw [collapse, scan_eligible b st t h cols false cols_nodup (cols_complete t)
    (fun i _ _ => hn i)]

theorem nonNeg_update {st : state} (hn : NonNeg st) (i : Fin 5) :
    NonNeg (Function.update st i (st i + 1)) := by
  intro j
  by_cases hji : j = i
  · subst hji; simp only [Function.update_same]; have := hn j; omega
  · simp only [Function.update_noteq hji]; exact hn j

theorem index_nat {s : List color} {p : Nat} : index s (p : Int) = s[p]? := by
  unfold index
  rw [if_neg (by omega)]
  simp

theorem forCols_congr {α : Type} {f g : Fin 5 → Outcome (Option α)} (l : List (Fin 5))
    (h : ∀ i ∈ l, f i = g i) : forCols f l = forCols g l := by
  induction l with
  | nil => rfl
  | cons a as ih =>
    rw [forCols, forCols, h a (List.mem_cons_self _ _),
      ih (fun i hi => h i (List.mem_cons_of_mem _ hi))]

theorem solveK_congr {r1 r2 : state → Outcome (List triple × Bool)} {b : board} {c : color}
    {i j k : Fin 5} {st2 : state}
    (h : ∀ st3, remaining b st3 < remaining b st2 → r1 st3 = r2 st3) :
    solveK r1 b c i j st2 k = solveK r2 b c i j st2 k := by
  unfold solveK
  split
  · rename_i c3 st3 ok ha
    cases ok with
    | false => rfl
    | true => rw [h st3 (advance_mono ha).2.2.2]
  · rfl
  · rfl

theorem solveJ_congr {r1 r2 : state → Outcome (List triple × Bool)} {b : board} {c : color}
    {i j : Fin 5} {st1 : state}
    (h : ∀ st3, remaining b st3 < remaining b st1 → r1 st3 = r2 st3) :
    solveJ r1 b c i st1 j = solveJ r2 b c i st1 j := by
  unfold solveJ
  split
  · rename_i c2 st2 ok ha
    cases ok with
    | false => rfl
    | true =>
      have hlt := (advance_mono ha).2.2.2
      rw [forCols_congr cols (fun k _ => solveK_congr (i := i) (j := j) (k := k) (c := c)
        (fun st3 hl => h st3 (by omega)))]
  · rfl
  · rfl

theorem solveI_congr {r1 r2 : state → Outcome (List triple × Bool)} {b : board}
    {i : Fin 5} {st : state}
    (h : ∀ st3, remaining b st3 < remaining b st → r1 st3 = r2 st3) :
    solveI r1 b st i = solveI r2 b st i := by
  unfold solveI
  split
  · rename_i c1 st1 ok ha
    cases ok with
    | false => rfl
    | true =>
      have hlt := (advance_mono ha).2.2.2
      rw [forCols_congr cols (fun j _ => solveJ_congr (i := i) (j := j) (c := c1)
        (fun st3 hl => h st3 (by omega)))]
  · rfl
  · rfl

/-- The result of `solveFuel` does not depend on the budget once it exceeds the number of
remaining blocks. -/
theorem solveFuel_budget (b : board) (n : Nat) :
    ∀ (m : Nat) (st : state), remaining b st < n → remaining b st < m →
      solveFuel n b st = solveFuel m b st := by
  induction n with
  | zero => intro m st h; omega
  | succ n ih =>
    intro m st hn hm
    cases m with
    | zero => omega
    | succ m =>
      rw [solveFuel, solveFuel,
        forCols_congr cols (fun i _ => solveI_congr (i := i)
          (fun st3 hl => ih m st3 (by omega) (by omega)))]

/-- Any budget above the number of remaining blocks yields the result of `solve`. -/
theorem solveFuel_eq_solve (b : board) (st : state) (n : Nat) (h : remaining b st < n) :
    solveFuel n b st = solve b st :=
  solveFuel_budget b n _ st h (Nat.lt_succ_self _)

/-- The recursion budget of `solve` is never exhausted. -/
theorem solve_ne_fuel (b : board) (st : state) : solve b st ≠ .fuel :=
  solveFuel_ne_fuel b _ st (Nat.lt_succ_self _)

/-- The result of the collapse loop does not depend on the budget once it exceeds the number
of remaining blocks. -/
theorem collapse_budget (b : board) (n : Nat) :
    ∀ (m : Nat) (st : state), remaining b st < n → remaining b st < m →
      collapse b n st = collapse b m st := by
  induction n with
  | zero => intro m st h; omega
  | succ n ih =>
    intro m st hn hm
    cases m with
    | zero => omega
    | succ m =>
      rw [collapse, collapse]
      split
      · rename_i st1 hs
        have := (scan_ret_props b cols _ _ _ _ hs).2.2.1
        simp at this
        exact ih m st1 (by omega) (by omega)
      · rfl
      · rfl
      · rfl

/-- Outside the data model: from a tuple with a negative component the Go code stops with an
index-out-of-range panic, so the statements about `solve` that assert a returned value
are made for cursors without negative components. -/
theorem solve_negative_cursor :
    solve boardA ![-1, 0, 0, 0, 0] = .panic := by decide

theorem scan_cons_panic {b : board} {st : state} {i : Fin 5} (is : List (Fin 5)) (r : Bool)
    (h0 : st i < 0) : scan b (i :: is) st r = .panic := by
  have h1 : st i < len (b i) := by unfold len; omega
  rw [scan, if_pos h1]
  have : index (b i) (st i) = none := by
    unfold index; rw [if_pos h0]
  rw [this]

/-- A pass that returns has met no negative component. -/
theorem scan_ret_nonneg (b : board) (l : List (Fin 5)) :
    ∀ (st : state) (r : Bool) (x : state × Bool), scan b l st r = .ret x →
      ∀ i ∈ l, 0 ≤ st i := by
  induction l with
  | nil => intro st r x _ i hi; simp at hi
  | cons a as ih =>
    intro st r x h i hi
    have ha : 0 ≤ st a := by
      by_contra hneg
      rw [scan_cons_panic as r (by omega)] at h
      simp at h
    rcases List.mem_cons.mp hi with rfl | hi
    · exact ha
    · rcases scan_cons_cases b st a as r with ⟨_, h0, _⟩ | ⟨_, hs⟩ | ⟨_, hs⟩
      · omega
      · rw [hs] at h
        have := ih _ _ _ h i hi
        by_cases hia : i = a
        · subst hia; exact ha
        · simpa only [Function.update_noteq hia] using this
      · rw [hs] at h
        exact ih _ _ _ h i hi

theorem collapse_ret_nonneg {b : board} {n : Nat} {st st2 : state}
    (h : collapse b n st = .ret st2) : NonNeg st := by
  cases n with
  | zero => simp [collapse] at h
  | succ n =>
    rw [collapse] at h
    intro i
    split at h
    · rename_i hs; exact scan_ret_nonneg b cols _ _ _ hs i (cols_complete i)
    · rename_i hs; exact scan_ret_nonneg b cols _ _ _ hs i (cols_complete i)
    · simp at h
    · simp at h

theorem advance_ok_nonneg {b : board} {st st2 : state} {i : Fin 5} {c : color}
    (h : advance b st (colInt i) = .ret (c, st2, true)) : NonNeg st := by
  obtain ⟨h1, h2, h3⟩ := advance_ok h
  have hn := collapse_ret_nonneg h3
  intro j
  have := hn j
  by_cases hji : j = i
  · subst hji; exact (index_bounds h2).1
  · simpa only [Function.update_noteq hji] using this

/-- The collapse loop stops on a cursor that a further pass leaves unchanged. -/
theorem collapse_fixpoint (b : board) (n : Nat) :
    ∀ (st st2 : state), collapse b n st = .ret st2 →
      scan b cols st2 false = .ret (st2, false) := by
  induction n with
  | zero => intro st st2 h; simp [collapse] at h
  | succ n ih =>
    intro st st2 h
    rw [collapse] at h
    split at h
    · exact ih _ _ h
    · rename_i st1 hs
      simp only [Outcome.ret.injEq] at h
      subst h
      have := scan_false_eq b cols _ _ hs
      rw [this] at hs
      rw [this]
      exact hs
    · simp at h
    · simp at h

theorem no_eligible_of_scan {b : board} {st : state}
    (h : scan b cols st false = .ret (st, false)) : ∀ i, ¬ Eligible b st i := by
  intro i hi
  have hn : ∀ j ∈ cols, st j < len (b j) → 0 ≤ st j :=
    fun j hj _ => scan_ret_nonneg b cols _ _ _ h j hj
  rw [scan_eligible b st i hi cols false cols_nodup (cols_complete i) hn] at h
  simp at h

theorem cursorSum_update (st : state) (i : Fin 5) (v : Int) :
    cursorSum (Function.update st i v) = cursorSum st + (v - st i) := by
  unfold cursorSum cols
  fin_cases i <;> simp [Function.update] <;> omega

theorem cursorSum_mono {st st2 : state} (h : ∀ i, st i ≤ st2 i) :
    cursorSum st ≤ cursorSum st2 := by
  unfold cursorSum cols
  have h0 := h 0
  have h1 := h 1
  have h2 := h 2
  have h3 := h 3
  have h4 := h 4
  simp only [List.map_cons, List.map_nil, List.sum_cons, List.sum_nil]
  omega

theorem advance_cursorSum {b : board} {st st2 : state} {i : Fin 5} {c : color}
    (h : advance b st (colInt i) = .ret (c, st2, true)) :
    cursorSum st + 1 ≤ cursorSum st2 := by
  obtain ⟨_, _, h3⟩ := advance_ok h
  have hm := (collapse_ret_props b _ _ _ h3).1
  have := cursorSum_mono hm
  rw [cursorSum_update] at this
  omega

theorem step3_cursorSum {b : board} {st st3 : state} {i j k : Fin 5} {c : color}
    (h : Step3 b st i j k c st3) : cursorSum st + 3 ≤ cursorSum st3 := by
  obtain ⟨st1, st2, h1, h2, h3, _⟩ := h
  have := advance_cursorSum h1
  have := advance_cursorSum h2
  have := advance_cursorSum h3
  omega

theorem remaining_eq_total {b : board} {st : state} (hv : Valid b st) :
    (remaining b st : Int) = (total b : Int) - cursorSum st := by
  unfold remaining total cursorSum cols len
  have h0 := hv 0
  have h1 := hv 1
  have h2 := hv 2
  have h3 := hv 3
  have h4 := hv 4
  unfold len at h0 h1 h2 h3 h4
  simp only [List.map_cons, List.map_nil, List.sum_cons, List.sum_nil]
  push_cast
  omega

/-- Every block in the half-open range of positions from `st` to `st2` is an obstacle. -/
theorem scan_only_obstacles (b : board) (l : List (Fin 5)) :
    ∀ (st : state) (r : Bool) (st2 : state) (r2 : Bool), scan b l st r = .ret (st2, r2) →
      ∀ (i : Fin 5) (p : Int), st i ≤ p → p < st2 i → index (b i) p = some black := by
  induction l with
  | nil =>
    intro st r st2 r2 h i p h1 h2
    simp only [scan, Outcome.ret.injEq, Prod.mk.injEq] at h
    rw [← h.1] at h2
    omega
  | cons a as ih =>
    intro st r st2 r2 h i p h1 h2
    rcases scan_cons_cases b st a as r with ⟨_, _, hp⟩ | ⟨he, hs⟩ | ⟨_, hs⟩
    · rw [hp] at h; exact absurd h (by simp)
    · rw [hs] at h
      by_cases hia : i = a
      · subst hia
        by_cases hp : p = st i
        · rw [hp]; exact he.2.1
        · exact ih _ _ _ _ h i p (by rw [Function.update_same]; omega) h2
      · exact ih _ _ _ _ h i p (by rw [Function.update_noteq hia]; exact h1) h2
    · rw [hs] at h
      exact ih _ _ _ _ h i p h1 h2

theorem collapse_only_obstacles (b : board) (n : Nat) :
    ∀ (st st2 : state), collapse b n st = .ret st2 →
      ∀ (i : Fin 5) (p : Int), st i ≤ p → p < st2 i → index (b i) p = some black := by
  induction n with
  | zero => intro st st2 h; simp [collapse] at h
  | succ n ih =>
    intro st st2 h i p h1 h2
    rw [collapse] at h
    split at h
    · rename_i st1 hs
      by_cases hp : p < st1 i
      · exact scan_only_obstacles b cols _ _ _ _ hs i p h1 hp
      · exact ih _ _ h i p (by omega) h2
    · rename_i st1 hs
      simp only [Outcome.ret.injEq] at h
      subst h
      exact scan_only_obstacles b cols _ _ _ _ hs i p h1 h2
    · simp at h
    · simp at h

/-- A pass changes at most one component. -/
theorem scan_cols_cases {b : board} {st st2 : state} {r2 : Bool}
    (h : scan b cols st false = .ret (st2, r2)) :
    (r2 = false ∧ st2 = st ∧ ∀ i, ¬ Eligible b st i) ∨
    (r2 = true ∧ ∃ t, Eligible b st t ∧ st2 = Function.update st t (st t + 1)) := by
  have hn : ∀ j ∈ cols, st j < len (b j) → 0 ≤ st j :=
    fun j hj _ => scan_ret_nonneg b cols _ _ _ h j hj
  by_cases he : ∃ t, Eligible b st t
  · obtain ⟨t, ht⟩ := he
    rw [scan_eligible b st t ht cols false cols_nodup (cols_complete t) hn] at h
    simp only [Outcome.ret.injEq, Prod.mk.injEq] at h
    exact Or.inr ⟨h.2.symm, t, ht, h.1.symm⟩
  · have hne : ∀ i, ¬ Eligible b st i := fun i hi => he ⟨i, hi⟩
    rw [scan_no_eligible b st false cols (fun i _ => hne i) hn] at h
    simp only [Outcome.ret.injEq, Prod.mk.injEq] at h
    exact Or.inl ⟨h.2.symm, h.1.symm, hne⟩

/-- While column `t` is at least as deep as every other column, the collapse loop removes
from column `t` only. -/
theorem collapse_deepest (b : board) (t : Fin 5) (n : Nat) :
    ∀ (st st2 : state), collapse b n st = .ret st2 →
      (∀ j, len (b j) - st j ≤ len (b t) - st t) →
      ∀ i, i ≠ t → st2 i = st i := by
  induction n with
  | zero => intro st st2 h; simp [collapse] at h
  | succ n ih =>
    intro st st2 h hd i hi
    rw [collapse] at h
    split at h
    · rename_i st1 hs
      rcases scan_cols_cases hs with ⟨hf, _⟩ | ⟨_, u, hu, rfl⟩
      · simp at hf
      · have hut : u = t := by
          by_contra hne
          have := hu.2.2 t (fun e => hne e.symm)
          have := hd u
          omega
        subst hut
        have := ih _ _ h (by
          intro j
          by_cases hj : j = u
          · subst hj; exact le_refl _
          · rw [Function.update_noteq hj, Function.update_same]
            have := hu.2.2 j hj
            omega) i hi
        rw [this, Function.update_noteq hi]
    · rename_i st1 hs
      simp only [Outcome.ret.injEq] at h
      subst h
      rw [scan_false_eq b cols _ _ hs]
    · simp at h
    · simp at h

/-- All removals of one run of the collapse loop come from one column. -/
theorem collapse_single_column {b : board} {n : Nat} {st st2 : state}
    (h : collapse b n st = .ret st2) : ∃ t, ∀ i, i ≠ t → st2 i = st i := by
  cases n with
  | zero => simp [collapse] at h
  | succ n =>
    rw [collapse] at h
    split at h
    · rename_i st1 hs
      rcases scan_cols_cases hs with ⟨hf, _⟩ | ⟨_, t, ht, rfl⟩
      · simp at hf
      · refine ⟨t, fun i hi => ?_⟩
        have := collapse_deepest b t n _ _ h (by
          intro j
          by_cases hj : j = t
          · subst hj; exact le_refl _
          · rw [Function.update_noteq hj, Function.update_same]
            have := ht.2.2 j hj
            omega) i hi
        rw [this, Function.update_noteq hi]
    · rename_i st1 hs
      simp only [Outcome.ret.injEq] at h
      subst h
      exact ⟨0, fun i _ => by rw [scan_false_eq b cols _ _ hs]⟩
    · simp at h
    · simp at h

theorem eligibleRef_iff (b : board) (st : state) (i : Fin 5) :
    eligibleRef b st i = true ↔ Eligible b st i := by
  unfold eligibleRef Eligible
  simp only [Bool.and_eq_true, beq_iff_eq, List.all_eq_true, Bool.or_eq_true,
    decide_eq_true_eq]
  constructor
  · rintro ⟨h1, h2⟩
    refine ⟨(index_bounds h1).2, h1, fun j hj => ?_⟩
    rcases h2 j (cols_complete j) with h | h
    · exact absurd h hj
    · exact h
  · rintro ⟨_, h1, h2⟩
    refine ⟨h1, fun j _ => ?_⟩
    by_cases hj : j = i
    · exact Or.inl hj
    · exact Or.inr (h2 j hj)

theorem passRef_eq_scan {b : board} {st : state} (hn : NonNeg st) :
    scan b cols st false = .ret (passRef b st) := by
  have h0 : ∀ j ∈ cols, st j < len (b j) → 0 ≤ st j := fun j _ _ => hn j
  by_cases he : ∃ t, Eligible b st t
  · obtain ⟨t, ht⟩ := he
    rw [scan_eligible b st t ht cols false cols_nodup (cols_complete t) h0]
    have h1 : (fun i => if eligibleRef b st i = true then st i + 1 else st i) =
        Function.update st t (st t + 1) := by
      funext i
      by_cases hi : i = t
      · subst hi
        rw [Function.update_same, if_pos ((eligibleRef_iff b st i).mpr ht)]
      · rw [Function.update_noteq hi, if_neg]
        intro h
        exact hi (eligible_unique ((eligibleRef_iff b st i).mp h) ht)
    have h2 : cols.any (eligibleRef b st) = true :=
      List.any_eq_true.mpr ⟨t, cols_complete t, (eligibleRef_iff b st t).mpr ht⟩
    unfold passRef
    rw [h1, h2]
  · have hne : ∀ i, ¬ Eligible b st i := fun i hi => he ⟨i, hi⟩
    rw [scan_no_eligible b st false cols (fun i _ => hne i) h0]
    have h1 : (fun i => if eligibleRef b st i = true then st i + 1 else st i) = st := by
      funext i
      rw [if_neg]
      intro h
      exact hne i ((eligibleRef_iff b st i).mp h)
    have h2 : cols.any (eligibleRef b st) = false := by
      rw [List.any_eq_false]
      intro i _ h
      exact hne i ((eligibleRef_iff b st i).mp h)
    unfold passRef
    rw [h1, h2]

theorem collapseRef_eq (b : board) (n : Nat) :
    ∀ (st : state), NonNeg st → collapse b n st = collapseRef b n st := by
  induction n with
  | zero => intro st _; rfl
  | succ n ih =>
    intro st hn
    have hs := passRef_eq_scan (b := b) hn
    rw [collapse, collapseRef, hs]
    rcases hp : passRef b st with ⟨st1, r⟩
    rw [hp] at hs
    have hmono := (scan_ret_props b cols _ _ _ _ hs).1
    cases r with
    | true => exact ih st1 (fun i => le_trans (hn i) (hmono i))
    | false => rfl

theorem solveJ_congr2 {r1 r2 : state → Outcome (List triple × Bool)} {b : board} {c : color}
    {i j : Fin 5} {st1 : state}
    (h : ∀ st3, remaining b st3 + 2 ≤ remaining b st1 → r1 st3 = r2 st3) :
    solveJ r1 b c i st1 j = solveJ r2 b c i st1 j := by
  unfold solveJ
  split
  · rename_i c2 st2 ok ha
    cases ok with
    | false => rfl
    | true =>
      have hlt := (advance_mono ha).2.2.2
      rw [forCols_congr cols (fun k _ => solveK_congr (i := i) (j := j) (k := k) (c := c)
        (fun st3 hl => h st3 (by omega)))]
  · rfl
  · rfl

theorem solveI_congr3 {r1 r2 : state → Outcome (List triple × Bool)} {b : board}
    {i : Fin 5} {st : state}
    (h : ∀ st3, remaining b st3 + 3 ≤ remaining b st → r1 st3 = r2 st3) :
    solveI r1 b st i = solveI r2 b st i := by
  unfold solveI
  split
  · rename_i c1 st1 ok ha
    cases ok with
    | false => rfl
    | true =>
      have hlt := (advance_mono ha).2.2.2
      rw [forCols_congr cols (fun j _ => solveJ_congr2 (i := i) (j := j) (c := c1)
        (fun st3 hl => h st3 (by omega)))]
  · rfl
  · rfl

/-- A budget of more than a third of the remaining blocks already determines the result. -/
theorem solveFuel_budget3 (b : board) (n : Nat) :
    ∀ (m : Nat) (st : state), remaining b st < 3 * n → remaining b st < 3 * m →
      solveFuel n b st = solveFuel m b st := by
  induction n with
  | zero => intro m st h; omega
  | succ n ih =>
    intro m st hn hm
    cases m with
    | zero => omega
    | succ m =>
      rw [solveFuel, solveFuel,
        forCols_congr cols (fun i _ => solveI_congr3 (i := i)
          (fun st3 hl => ih m st3 (by omega) (by omega)))]

theorem remaining_le_total {b : board} {st : state} (hv : Valid b st) :
    remaining b st ≤ total b := by
  have h := remaining_eq_total hv
  have h2 : 0 ≤ cursorSum st := by
    have := @cursorSum_mono start st (fun i => (hv i).1)
    have h0 : cursorSum start = 0 := by decide
    omega
  omega

theorem drop_countP_step (p : color → Bool) (l : List color) (k : Int) (y : color)
    (h : index l k = some y) :
    (l.drop k.toNat).countP p = (l.drop (k + 1).toNat).countP p + (if p y then 1 else 0) := by
  have hb := index_bounds h
  unfold len at hb
  have hk : k.toNat < l.length := by omega
  unfold index at h
  rw [if_neg (by omega)] at h
  have hy : l[k.toNat] = y := by
    rw [List.getElem?_eq_getElem hk] at h
    exact Option.some.inj h
  have h1 : (k + 1).toNat = k.toNat + 1 := by omega
  rw [h1, List.drop_eq_getElem_cons hk, List.countP_cons, hy]

theorem remainingWhere_update (p : color → Bool) (b : board) (st : state) (i : Fin 5)
    (y : color) (h : index (b i) (st i) = some y) :
    remainingWhere p b st =
      remainingWhere p b (Function.update st i (st i + 1)) + (if p y then 1 else 0) := by
  have hs := drop_countP_step p (b i) (st i) y h
  unfold remainingWhere cols
  fin_cases i <;> simp [Function.update] at hs ⊢ <;> omega

theorem remainingWhere_empty (p : color → Bool) {b : board} {st : state}
    (h : empty b st = true) : remainingWhere p b st = 0 := by
  have he := (empty_iff b st).mp h
  have hz : ∀ i, ((b i).drop (st i).toNat).countP p = 0 := by
    intro i
    have := he i
    unfold len at this
    rw [List.drop_eq_nil_of_le (by omega)]
    rfl
  unfold remainingWhere cols
  simp [hz]

theorem scan_remainingWhere (p : color → Bool) (hp : p black = false) (b : board)
    (l : List (Fin 5)) :
    ∀ (st : state) (r : Bool) (st2 : state) (r2 : Bool), scan b l st r = .ret (st2, r2) →
      remainingWhere p b st2 = remainingWhere p b st := by
  induction l with
  | nil =>
    intro st r st2 r2 h
    simp only [scan, Outcome.ret.injEq, Prod.mk.injEq] at h
    rw [h.1]
  | cons a as ih =>
    intro st r st2 r2 h
    rcases scan_cons_cases b st a as r with ⟨_, _, hpan⟩ | ⟨he, hs⟩ | ⟨_, hs⟩
    · rw [hpan] at h; exact absurd h (by simp)
    · rw [hs] at h
      rw [ih _ _ _ _ h, remainingWhere_update p b st a black he.2.1, hp]
      simp
    · rw [hs] at h
      exact ih _ _ _ _ h

theorem collapse_remainingWhere (p : color → Bool) (hp : p black = false) (b : board)
    (n : Nat) :
    ∀ (st st2 : state), collapse b n st = .ret st2 →
      remainingWhere p b st2 = remainingWhere p b st := by
  induction n with
  | zero => intro st st2 h; simp [collapse] at h
  | succ n ih =>
    intro st st2 h
    rw [collapse] at h
    split at h
    · rename_i st1 hs
      rw [ih _ _ h, scan_remainingWhere p hp b cols _ _ _ _ hs]
    · rename_i st1 hs
      simp only [Outcome.ret.injEq] at h
      subst h
      exact scan_remainingWhere p hp b cols _ _ _ _ hs
    · simp at h
    · simp at h

/-- A successful move takes away exactly its own block among the non-obstacle blocks. -/
theorem advance_remainingWhere (p : color → Bool) (hp : p black = false) {b : board}
    {st st2 : state} {i : Fin 5} {c : color}
    (h : advance b st (colInt i) = .ret (c, st2, true)) :
    remainingWhere p b st = remainingWhere p b st2 + (if p c then 1 else 0) := by
  obtain ⟨_, h2, h3⟩ := advance_ok h
  rw [remainingWhere_update p b st i c h2, collapse_remainingWhere p hp b _ _ _ h3]

theorem step3_remainingWhere (p : color → Bool) (hp : p black = false) {b : board}
    {st st3 : state} {i j k : Fin 5} {c : color} (h : Step3 b st i j k c st3) :
    remainingWhere p b st = remainingWhere p b st3 + 3 * (if p c then 1 else 0) := by
  obtain ⟨st1, st2, h1, h2, h3, _⟩ := h
  rw [advance_remainingWhere p hp h1, advance_remainingWhere p hp h2,
    advance_remainingWhere p hp h3]
  omega

theorem clears_remainingWhere (p : color → Bool) (hp : p black = false) {b : board}
    {st : state} {ts : List triple} (h : Clears b st ts) :
    remainingWhere p b st = 3 * ts.countP (fun t => p t.m0.color) := by
  induction h with
  | done he => rw [remainingWhere_empty p he]; rfl
  | step hstep _ ih =>
    obtain ⟨i, j, k, c, rfl, hs⟩ := tripleStep_step3 hstep
    rw [step3_remainingWhere p hp hs, ih, List.countP_cons]
    simp only [mkTriple]
    split <;> omega

theorem clears_countReal {b : board} {st : state} {ts : List triple} (h : Clears b st ts) :
    countReal b st = 3 * ts.length := by
  unfold countReal
  rw [clears_remainingWhere _ (by simp) h]
  congr 1
  rw [List.countP_eq_length]
  intro t ht
  obtain ⟨i, j, k, c, rfl, hc⟩ := clears_shape h t ht
  simpa [mkTriple] using hc

theorem solve_ret_of_nonNeg {b : board} {st : state} (hn : NonNeg st) :
    ∃ s ok, solve b st = .ret (s, ok) := by
  obtain ⟨⟨s, ok⟩, hr⟩ := solveFuel_ret b (remaining b st + 1) st hn (Nat.lt_succ_self _)
  exact ⟨s, ok, hr⟩

theorem solve_true_clears {b : board} {st : state} {soln : List triple}
    (h : solve b st = .ret (soln, true)) : Clears b st soln :=
  solveFuel_sound b _ st soln h

theorem advanceAsserted_eq {b : board} {st : state} (hv : Valid b st) (i : Fin 5) :
    advanceAsserted b st (colInt i) = advance b st (colInt i) := by
  obtain ⟨c, st2, ok, ha, hv2⟩ := advance_valid hv i
  unfold advanceAsserted assertValid
  rw [ha]
  simp only [hv2, if_true]

theorem solveKAsserted_eq {r1 r2 : state → Outcome (List triple × Bool)} {b : board}
    {c : color} {i j k : Fin 5} {st2 : state} (hv : Valid b st2)
    (h : ∀ s, Valid b s → r1 s = r2 s) :
    solveKAsserted r1 b c i j st2 k = solveK r2 b c i j st2 k := by
  obtain ⟨c3, st3, ok, ha, hv3⟩ := advance_valid hv k
  unfold solveKAsserted solveK
  rw [advanceAsserted_eq hv k, ha]
  simp only [h st3 hv3]
  try rfl

theorem solveJAsserted_eq {r1 r2 : state → Outcome (List triple × Bool)} {b : board}
    {c : color} {i j : Fin 5} {st1 : state} (hv : Valid b st1)
    (h : ∀ s, Valid b s → r1 s = r2 s) :
    solveJAsserted r1 b c i st1 j = solveJ r2 b c i st1 j := by
  obtain ⟨c2, st2, ok, ha, hv2⟩ := advance_valid hv j
  unfold solveJAsserted solveJ
  rw [advanceAsserted_eq hv j, ha]
  simp only [forCols_congr cols (fun k _ => solveKAsserted_eq (c := c) (i := i) (j := j)
    (k := k) hv2 h)]
  try rfl

theorem solveIAsserted_eq {r1 r2 : state → Outcome (List triple × Bool)} {b : board}
    {i : Fin 5} {st : state} (hv : Valid b st)
    (h : ∀ s, Valid b s → r1 s = r2 s) :
    solveIAsserted r1 b st i = solveI r2 b st i := by
  obtain ⟨c1, st1, ok, ha, hv1⟩ := advance_valid hv i
  unfold solveIAsserted solveI
  rw [advanceAsserted_eq hv i, ha]
  simp only [forCols_congr cols (fun j _ => solveJAsserted_eq (c := c1) (i := i) (j := j)
    hv1 h)]
  try rfl

/-- From a cursor within the bounds no assertion of `solveAsserted` is violated: it computes
what `solveFuel` computes. -/
theorem solveAsserted_eq (b : board) (n : Nat) :
    ∀ (st : state), Valid b st → solveAsserted n b st = solveFuel n b st := by
  induction n with
  | zero => intro st _; rfl
  | succ n ih =>
    intro st hv
    rw [solveAsserted, solveFuel]
    unfold assertValid
    rw [if_pos hv, forCols_congr cols (fun i _ => solveIAsserted_eq (i := i) hv ih)]
    try rfl

/-- The bodies of the loops of `solve` hand to the recursive call only cursors that are
returned by an `advance` call on a cursor returned by an `advance` call on a cursor
returned by an `advance` call on the cursor of the activation. -/
theorem solveI_reached {r1 r2 : state → Outcome (List triple × Bool)} {b : board}
    {i : Fin 5} {st : state} (hr : Reached b st)
    (h : ∀ s, Reached b s → r1 s = r2 s) :
    solveI r1 b st i = solveI r2 b st i := by
  unfold solveI
  split
  · rename_i c1 st1 ok1 ha1
    have hr1 := Reached.next i hr ha1
    cases ok1 with
    | false => rfl
    | true =>
      have hJ : ∀ j ∈ cols, solveJ r1 b c1 i st1 j = solveJ r2 b c1 i st1 j := by
        intro j _
        unfold solveJ
        split
        · rename_i c2 st2 ok2 ha2
          have hr2 := Reached.next j hr1 ha2
          cases ok2 with
          | false => rfl
          | true =>
            have hK : ∀ k ∈ cols, solveK r1 b c1 i j st2 k = solveK r2 b c1 i j st2 k := by
              intro k _
              unfold solveK
              split
              · rename_i c3 st3 ok3 ha3
                rw [h st3 (Reached.next k hr2 ha3)]
              · rfl
              · rfl
            rw [forCols_congr cols hK]
        · rfl
        · rfl
      rw [forCols_congr cols hJ]
  · rfl
  · rfl

/-! ## Main results -/

/-- C1 (solution validity): when `solve` returns a solution with `ok = true`, replaying its
moves in order by `advance`, each from the cursor left by the previous move, succeeds at
every call with the colour recorded in the move, and ends on a cursor on which `empty` holds. -/
theorem solve_solution_valid (b : board) (st : state) (soln : List triple)
    (h : solve b st = .ret (soln, true)) :
    ∃ stf, replay b st (movesOf soln) = some stf ∧ empty b stf = true :=
  clears_replay (solveFuel_sound b _ st soln h)

/-- Instance of C1 on `boardA` from the initial cursor. -/
theorem solve_solution_valid_witness :
    solve boardA start = .ret (solnA, true) ∧
      ∃ stf, replay boardA start (movesOf solnA) = some stf ∧ empty boardA stf = true :=
  ⟨by decide, solve_solution_valid boardA start solnA (by decide)⟩

/-- C2 (search completeness): from a cursor without negative components, `solve` returns;
it reports `ok = false` exactly when no sequence of triples clears the board from that
cursor, and `ok = true` exactly when one does. -/
theorem solve_complete (b : board) (st : state) (hn : NonNeg st) :
    ((∃ s, solve b st = .ret (s, false)) ↔ ¬ ∃ ts, Clears b st ts) ∧
    ((∃ s, solve b st = .ret (s, true)) ↔ ∃ ts, Clears b st ts) := by
  obtain ⟨⟨s, ok⟩, hr⟩ := solveFuel_ret b (remaining b st + 1) st hn (Nat.lt_succ_self _)
  have hr2 : solve b st = .ret (s, ok) := hr
  cases ok with
  | false =>
    have hno : ¬ ∃ ts, Clears b st ts := fun ⟨ts, hts⟩ => solveFuel_fail_sound b _ st s ts hr hts
    refine ⟨⟨fun _ => hno, fun _ => ⟨s, hr2⟩⟩, ⟨?_, fun h => absurd h hno⟩⟩
    rintro ⟨s2, h2⟩
    rw [hr2] at h2
    simp at h2
  | true =>
    have hyes : ∃ ts, Clears b st ts := ⟨s, solveFuel_sound b _ st s hr⟩
    refine ⟨⟨?_, fun h => absurd hyes h⟩, ⟨fun _ => hyes, fun _ => ⟨s, hr2⟩⟩⟩
    rintro ⟨s2, h2⟩
    rw [hr2] at h2
    simp at h2

/-- Instance of C2 on `boardA` from the initial cursor. -/
theorem solve_complete_witness :
    NonNeg start ∧
    ((∃ s, solve boardA start = .ret (s, false)) ↔ ¬ ∃ ts, Clears boardA start ts) ∧
    ((∃ s, solve boardA start = .ret (s, true)) ↔ ∃ ts, Clears boardA start ts) :=
  ⟨nonNeg_start, solve_complete boardA start nonNeg_start⟩

/-- C3 (first-solution order): a solution returned by `solve` clears the board, and its
sequence of column indices is lexicographically least among the column-index sequences of
all clearing sequences of triples from the same cursor, whatever their length. -/
theorem solve_first_solution (b : board) (st : state) (soln : List triple)
    (h : solve b st = .ret (soln, true)) :
    Clears b st soln ∧
      ∀ ts, Clears b st ts →
        colsOf soln = colsOf ts ∨ List.Lex (fun x y => x < y) (colsOf soln) (colsOf ts) :=
  ⟨solveFuel_sound b _ st soln h, fun ts hts => solveFuel_lex_min b _ st soln ts h hts⟩

/-- Instance of C3 on `boardA` from the initial cursor. -/
theorem solve_first_solution_witness :
    solve boardA start = .ret (solnA, true) ∧ Clears boardA start solnA ∧
      ∀ ts, Clears boardA start ts →
        colsOf solnA = colsOf ts ∨ List.Lex (fun x y => x < y) (colsOf solnA) (colsOf ts) :=
  ⟨by decide, solve_first_solution boardA start solnA (by decide)⟩

/-- C4: every triple of a solution returned by `solve` consists of three moves of one and
the same colour, that colour is not the obstacle colour, and every column index of a move
lies in the range 0..4. -/
theorem solve_triples_same_colour (b : board) (st : state) (soln : List triple)
    (h : solve b st = .ret (soln, true)) :
    ∀ t ∈ soln, t.m1.color = t.m0.color ∧ t.m2.color = t.m0.color ∧ t.m0.color ≠ black ∧
      ∀ mv ∈ t.moves, 0 ≤ mv.col ∧ mv.col ≤ 4 := by
  intro t ht
  obtain ⟨i, j, k, c, rfl, hc⟩ := clears_shape (solveFuel_sound b _ st soln h) t ht
  refine ⟨rfl, rfl, hc, ?_⟩
  intro mv hmv
  have hi := colInt_range i
  have hj := colInt_range j
  have hk := colInt_range k
  simp only [triple.moves, mkTriple, List.mem_cons, List.mem_singleton, List.not_mem_nil,
    or_false] at hmv
  rcases hmv with rfl | rfl | rfl <;> simp only <;> omega

/-- Instance of C4 on `boardA` from the initial cursor. -/
theorem solve_triples_same_colour_witness :
    solve boardA start = .ret (solnA, true) ∧
      ∀ t ∈ solnA, t.m1.color = t.m0.color ∧ t.m2.color = t.m0.color ∧ t.m0.color ≠ black ∧
        ∀ mv ∈ t.moves, 0 ≤ mv.col ∧ mv.col ≤ 4 :=
  ⟨by decide, solve_triples_same_colour boardA start solnA (by decide)⟩

/-- C5 as stated fails: on `boardB` from the initial cursor, which satisfies the cursor
invariant, `advance` on column 0 reports `ok = true` and returns the obstacle colour. -/
theorem advance_obstacle_colour_counterexample :
    ¬ ∀ (b : board) (st : state) (col : Fin 5) (c : color) (st2 : state),
      Valid b st → advance b st (colInt col) = .ret (c, st2, true) → c ≠ black := by
  intro h
  exact h boardB start 0 black ![1, 0, 0, 0, 0] (valid_start boardB) (by decide) rfl

/-- C5 (amended): from a cursor satisfying the cursor invariant, a successful `advance`
returns the colour of the block at the input cursor of the chosen column; it is the
obstacle colour exactly when that block is an obstacle. -/
theorem advance_colour_obstacle_iff (b : board) (st : state) (col : Fin 5) (c : color)
    (st2 : state) (_hv : Valid b st) (h : advance b st (colInt col) = .ret (c, st2, true)) :
    c = black ↔ index (b col) (st col) = some black := by
  have hc := (advance_ok h).2.1
  rw [hc]
  constructor
  · intro e; rw [e]
  · intro e; exact Option.some.inj e

/-- Instance of the amended C5 on `boardB`. -/
theorem advance_colour_obstacle_iff_witness :
    Valid boardB start ∧ advance boardB start (colInt 0) = .ret (black, ![1, 0, 0, 0, 0], true) ∧
      (black = black ↔ index (boardB 0) (start 0) = some black) :=
  ⟨valid_start boardB, by decide,
    advance_colour_obstacle_iff boardB start 0 black ![1, 0, 0, 0, 0] (valid_start boardB)
      (by decide)⟩

/-- C6: from a cursor satisfying the cursor invariant and for a column index in 0..4,
`advance` returns; it reports `ok = false` exactly when the cursor of the chosen column
equals the column's length, and when it reports `ok = true` the colour returned is the block
at the input cursor of the chosen column. -/
theorem advance_fails_iff (b : board) (st : state) (col : Fin 5) (hv : Valid b st) :
    ∃ c st2 ok, advance b st (colInt col) = .ret (c, st2, ok) ∧
      (ok = false ↔ st col = len (b col)) ∧
      (ok = true → index (b col) (st col) = some c) := by
  obtain ⟨c, st2, ok, ha, _⟩ := advance_valid hv col
  refine ⟨c, st2, ok, ha, ?_, ?_⟩
  · cases ok with
    | false =>
      have := (advance_fail ha).1
      have := (hv col).2
      exact ⟨fun _ => by omega, fun _ => rfl⟩
    | true =>
      have := (advance_ok ha).1
      exact ⟨fun e => by simp at e, fun e => by omega⟩
  · intro e
    subst e
    exact (advance_ok ha).2.1

/-- Instance of C6 on `boardA` from the initial cursor. -/
theorem advance_fails_iff_witness :
    Valid boardA start ∧
      ∃ c st2 ok, advance boardA start (colInt 3) = .ret (c, st2, ok) ∧
        (ok = false ↔ start 3 = len (boardA 3)) ∧
        (ok = true → index (boardA 3) (start 3) = some c) :=
  ⟨valid_start boardA, advance_fails_iff boardA start 3 (valid_start boardA)⟩

/-- C7 (advance monotonicity): when `advance` reports `ok = true`, no component of the
returned cursor is below the corresponding component of the input cursor, and the component
of the chosen column has grown by at least one. -/
theorem advance_monotone (b : board) (st : state) (col : Int) (c : color) (st2 : state)
    (h : advance b st col = .ret (c, st2, true)) :
    (∀ i, st2 i ≥ st i) ∧ ∃ i, colInt i = col ∧ st2 i ≥ st i + 1 := by
  obtain ⟨i, rfl⟩ := advance_col h
  obtain ⟨m1, m2, _, _⟩ := advance_mono h
  exact ⟨m1, i, rfl, m2⟩

/-- Instance of C7 on `boardC`: the move on column 1 also removes the obstacle of column 0. -/
theorem advance_monotone_witness :
    advance boardC start 1 = .ret (red, ![1, 1, 0, 0, 0], true) ∧
      (∀ i, (![1, 1, 0, 0, 0] : state) i ≥ start i) ∧
      ∃ i, colInt i = 1 ∧ (![1, 1, 0, 0, 0] : state) i ≥ start i + 1 :=
  ⟨by decide, advance_monotone boardC start 1 red ![1, 1, 0, 0, 0] (by decide)⟩

/-- C8 (cursor invariant): from a cursor within the bounds `0 <= st[i] <= len(b[i])`,
`advance` on a column index in 0..4 returns, and the cursor it returns, on success or on
failure, is within the same bounds; hence so is every cursor reached from the all-zero
initial cursor by `advance` calls, these are the only cursors the loops of `solve` hand to
its recursive call, and `solve` from a cursor within the bounds, the all-zero initial
cursor in particular, returns the same result when the bounds are asserted on every cursor
it reaches (`solveAsserted`): no such assertion is violated. -/
theorem cursor_invariant (b : board) :
    (∀ (st : state) (col : Fin 5), Valid b st →
      (∃ c st2 ok, advance b st (colInt col) = .ret (c, st2, ok)) ∧
      ∀ c st2 ok, advance b st (colInt col) = .ret (c, st2, ok) → Valid b st2) ∧
    (∀ st, Reached b st → Valid b st) ∧
    (∀ (st : state) (i : Fin 5) (r1 r2 : state → Outcome (List triple × Bool)),
      Reached b st → (∀ s, Reached b s → r1 s = r2 s) →
      solveI r1 b st i = solveI r2 b st i) ∧
    (∀ st, Valid b st →
      ∃ r, solve b st = .ret r ∧ solveAsserted (remaining b st + 1) b st = .ret r) ∧
    (∃ r, solve b start = .ret r ∧ solveAsserted (remaining b start + 1) b start = .ret r) := by
  have step : ∀ (st : state) (col : Fin 5), Valid b st →
      (∃ c st2 ok, advance b st (colInt col) = .ret (c, st2, ok)) ∧
      ∀ c st2 ok, advance b st (colInt col) = .ret (c, st2, ok) → Valid b st2 := by
    intro st col hv
    obtain ⟨c, st2, ok, ha, hv2⟩ := advance_valid hv col
    refine ⟨⟨c, st2, ok, ha⟩, ?_⟩
    intro c3 st3 ok3 h3
    rw [ha] at h3
    simp only [Outcome.ret.injEq, Prod.mk.injEq] at h3
    rw [← h3.2.1]
    exact hv2
  have asserted : ∀ st, Valid b st →
      ∃ r, solve b st = .ret r ∧ solveAsserted (remaining b st + 1) b st = .ret r := by
    intro st hv
    obtain ⟨r, hr⟩ := solveFuel_ret b (remaining b st + 1) st (valid_nonNeg hv)
      (Nat.lt_succ_self _)
    exact ⟨r, hr, by rw [solveAsserted_eq b _ st hv, hr]⟩
  refine ⟨step, ?_, fun st i r1 r2 hr h => solveI_reached hr h, asserted,
    asserted start (valid_start b)⟩
  intro st hr
  induction hr with
  | init => exact valid_start b
  | next i _ ha ih => exact (step _ i ih).2 _ _ _ ha

/-- Instance of C8 on `boardC` for `advance` and on `boardA`, which `solve` clears in two
triples with one automatic removal, for `solve`. -/
theorem cursor_invariant_witness :
    Valid boardC start ∧ Valid boardC ![1, 1, 0, 0, 0] ∧ Valid boardA start ∧
      solve boardA start = .ret (solnA, true) ∧
      ∃ r, solve boardA start = .ret r ∧
        solveAsserted (remaining boardA start + 1) boardA start = .ret r :=
  ⟨valid_start boardC,
    ((cursor_invariant boardC).1 start 1 (valid_start boardC)).2 red ![1, 1, 0, 0, 0] true
      (by decide),
    valid_start boardA, by decide,
    (cursor_invariant boardA).2.2.2.1 start (valid_start boardA)⟩

/-- C9: on a cursor satisfying the cursor invariant, `empty` is true exactly when every
component equals its column's length; on the terminal cursor of any board it is true. -/
theorem empty_iff_terminal (b : board) (st : state) (hv : Valid b st) :
    (empty b st = true ↔ ∀ i, st i = len (b i)) ∧ empty b (terminal b) = true := by
  refine ⟨?_, (empty_iff b _).mpr (fun i => le_refl _)⟩
  rw [empty_iff]
  constructor
  · intro h i
    have := h i
    have := (hv i).2
    omega
  · intro h i
    rw [h i]

/-- Instance of C9 on `boardA` at the initial cursor. -/
theorem empty_iff_terminal_witness :
    Valid boardA start ∧
      (empty boardA start = true ↔ ∀ i, start i = len (boardA i)) ∧
      empty boardA (terminal boardA) = true :=
  ⟨valid_start boardA, empty_iff_terminal boardA start (valid_start boardA)⟩

/-- C10 (collapse correctness): let the cursor satisfy the cursor invariant, let the block
at the cursor of column `t` be the only obstacle among the remaining blocks, and let column
`t` have strictly greater remaining depth than every other column.  Then `advance` on any
other non-exhausted column `c` succeeds and returns the input cursor with component `c`
increased by exactly one and component `t` increased by exactly one. -/
theorem collapse_single_obstacle (b : board) (st : state) (t c : Fin 5) (hv : Valid b st)
    (ht : st t < len (b t))
    (hob : ∀ (i : Fin 5) (p : Nat), p < (b i).length → st i ≤ (p : Int) →
      ((b i)[p]? = some black ↔ (i = t ∧ (p : Int) = st t)))
    (hdeep : ∀ j, j ≠ t → len (b j) - st j < len (b t) - st t)
    (hc : c ≠ t) (hlt : st c < len (b c)) :
    ∃ clr, advance b st (colInt c) =
      .ret (clr, Function.update (Function.update st c (st c + 1)) t (st t + 1), true) := by
  have hn := valid_nonNeg hv
  obtain ⟨clr, hclr⟩ := index_isSome (hn c) hlt
  refine ⟨clr, advance_of_collapse hlt hclr ?_⟩
  have htc : t ≠ c := fun h => hc h.symm
  have hn1 := nonNeg_update hn c
  -- facts about obstacles in terms of `index`
  have hblack : ∀ (i : Fin 5) (q : Int), st i ≤ q → q < len (b i) →
      (index (b i) q = some black ↔ (i = t ∧ q = st t)) := by
    intro i q h1 h2
    have hq0 : 0 ≤ q := le_trans (hn i) h1
    obtain ⟨p, rfl⟩ := Int.eq_ofNat_of_zero_le hq0
    rw [index_nat]
    unfold len at h2
    exact hob i p (by omega) h1
  have he : Eligible b (Function.update st c (st c + 1)) t := by
    refine ⟨?_, ?_, ?_⟩
    · rw [Function.update_noteq htc]; exact ht
    · rw [Function.update_noteq htc]
      exact (hblack t (st t) (le_refl _) ht).mpr ⟨rfl, rfl⟩
    · intro j hj
      rw [Function.update_noteq htc]
      have := hdeep j hj
      by_cases hjc : j = c
      · subst hjc; rw [Function.update_same]; omega
      · rw [Function.update_noteq hjc]; exact this
  have hrem := remaining_update b (Function.update st c (st c + 1)) t he.1
  rw [← hrem, collapse_eligible _ hn1 he]
  rw [Function.update_noteq htc]
  apply collapse_no_eligible _ (by
    have := nonNeg_update hn1 t
    rwa [Function.update_noteq htc] at this)
  intro i hi
  obtain ⟨h1, h2, _⟩ := hi
  by_cases hit : i = t
  · subst hit
    rw [Function.update_same] at h1 h2
    have := (hblack i (st i + 1) (by omega) h1).mp h2
    omega
  · rw [Function.update_noteq hit] at h1 h2
    by_cases hic : i = c
    · subst hic
      rw [Function.update_same] at h1 h2
      exact hit ((hblack i (st i + 1) (by omega) h1).mp h2).1
    · rw [Function.update_noteq hic] at h1 h2
      exact hit ((hblack i (st i) (le_refl _) h1).mp h2).1

/-- Instance of C10 on `boardC`: obstacle at the cursor of column 0, move on column 1. -/
theorem collapse_single_obstacle_witness :
    Valid boardC start ∧
      ∃ clr, advance boardC start (colInt 1) =
        .ret (clr, Function.update (Function.update start 1 (start 1 + 1)) 0 (start 0 + 1),
          true) :=
  ⟨valid_start boardC,
    collapse_single_obstacle boardC start 0 1 (valid_start boardC) (by decide) (by decide)
      (by decide) (by decide) (by decide)⟩

/-- C11 (cascade correctness): let `advance` succeed on column `col`; if after the real move
column `t` is the unique deepest column with an obstacle at its cursor, and after the
removal of that obstacle column `u` is the unique deepest column with an obstacle at its
cursor, then the returned cursor lies beyond both obstacles and its component sum exceeds
that of the input cursor by at least three.  The situation exists: on `boardD` the move on
column 0 from the all-zero cursor returns the cursor (1,2,0,0,0). -/
theorem cascade_removes_both :
    (∀ (b : board) (st : state) (col t u : Fin 5) (c : color) (st2 : state),
      advance b st (colInt col) = .ret (c, st2, true) →
      Eligible b (bump st col) t →
      Eligible b (bump (bump st col) t) u →
      st2 t ≥ bump st col t + 1 ∧ st2 u ≥ bump (bump st col) t u + 1 ∧
      cursorSum st2 ≥ cursorSum st + 3) ∧
    advance boardD start 0 = .ret (red, ![1, 2, 0, 0, 0], true) := by
  refine ⟨?_, by decide⟩
  intro b st col t u c st2 h he1 he2
  unfold bump at he1 he2 ⊢
  obtain ⟨_, _, h3⟩ := advance_ok h
  have hn1 := collapse_ret_nonneg h3
  generalize hst1 : Function.update st col (st col + 1) = st1 at h3 hn1 he1 he2 ⊢
  have hr1 := remaining_update b st1 t he1.1
  rw [← hr1, collapse_eligible _ hn1 he1] at h3
  have hn2 := nonNeg_update hn1 t
  generalize hst2 : Function.update st1 t (st1 t + 1) = sta at h3 hn2 he2 hr1 ⊢
  have hr2 := remaining_update b sta u he2.1
  rw [← hr2, collapse_eligible _ hn2 he2] at h3
  have hm := (collapse_ret_props b _ _ _ h3).1
  have hsum := cursorSum_mono hm
  rw [cursorSum_update, ← hst2, cursorSum_update, ← hst1, cursorSum_update] at hsum
  refine ⟨?_, ?_, by omega⟩
  · have := hm t
    by_cases htu : t = u
    · subst htu
      rw [Function.update_same, ← hst2, Function.update_same] at this
      omega
    · rw [Function.update_noteq htu, ← hst2, Function.update_same] at this
      omega
  · have := hm u
    rw [Function.update_same] at this
    omega

/-- Instance of C11 on `boardD`: both obstacles of column 1 are removed by the move on
column 0. -/
theorem cascade_removes_both_witness :
    advance boardD start (colInt 0) = .ret (red, ![1, 2, 0, 0, 0], true) ∧
      Eligible boardD (bump start 0) 1 ∧ Eligible boardD (bump (bump start 0) 1) 1 ∧
      (![1, 2, 0, 0, 0] : state) 1 ≥ bump start 0 1 + 1 ∧
      (![1, 2, 0, 0, 0] : state) 1 ≥ bump (bump start 0) 1 1 + 1 ∧
      cursorSum ![1, 2, 0, 0, 0] ≥ cursorSum start + 3 :=
  ⟨by decide, by decide, by decide,
    cascade_removes_both.1 boardD start 0 1 1 red ![1, 2, 0, 0, 0] (by decide) (by decide)
      (by decide)⟩

/-- C12: from a cursor without negative components at which the board is not empty, if no
non-obstacle colour occurs at least three times among the remaining blocks, then `solve`
reports `ok = false`; in particular it does so from the all-zero cursor on the board whose
five columns hold one block each, yellow, red, green, purple, yellow. -/
theorem solve_fails_without_three :
    (∀ (b : board) (st : state), NonNeg st → empty b st = false →
      (∀ c, c ≠ black → countColour b st c < 3) → ∃ s, solve b st = .ret (s, false)) ∧
    solve boardF start = .ret ([], false) := by
  refine ⟨?_, by decide⟩
  intro b st hn hne hc
  obtain ⟨s, ok, hr⟩ := solve_ret_of_nonNeg (b := b) hn
  cases ok with
  | false => exact ⟨s, hr⟩
  | true =>
    exfalso
    have hcl := solve_true_clears hr
    cases hcl with
    | done he => rw [he] at hne; simp at hne
    | step hstep _ =>
      obtain ⟨i, j, k, c, _, hs⟩ := tripleStep_step3 hstep
      have hblack := hs.choose_spec.choose_spec.2.2.2
      have h3 := step3_remainingWhere (fun x => x == c) (by simpa using Ne.symm hblack) hs
      have := hc c hblack
      unfold countColour at this
      simp only [beq_self_eq_true, if_true] at h3
      omega

/-- Instance of C12 on `boardF` from the initial cursor. -/
theorem solve_fails_without_three_witness :
    NonNeg start ∧ empty boardF start = false ∧
      (∀ c, c ≠ black → countColour boardF start c < 3) ∧
      ∃ s, solve boardF start = .ret (s, false) := by
  have hc : ∀ c, c ≠ black → countColour boardF start c < 3 := by
    intro c _
    by_cases h1 : c = yellow
    · subst h1; decide
    by_cases h2 : c = red
    · subst h2; decide
    by_cases h3 : c = green
    · subst h3; decide
    by_cases h4 : c = purple
    · subst h4; decide
    unfold countColour remainingWhere cols boardF start
    simp [List.countP_cons, Ne.symm h1, Ne.symm h2, Ne.symm h3, Ne.symm h4]
  exact ⟨nonNeg_start, by decide, hc,
    solve_fails_without_three.1 boardF start nonNeg_start (by decide) hc⟩

/-- C13: on the board with exactly one red block in each of the columns 0, 1, 2 and empty
columns 3, 4, `solve` from the all-zero cursor returns `ok = true` with the single triple
`[(0,red),(1,red),(2,red)]`; replaying it ends on the cursor (1,1,1,0,0), on which the
board is empty. -/
theorem solve_three_reds :
    solve boardR start = .ret ([⟨⟨0, red⟩, ⟨1, red⟩, ⟨2, red⟩⟩], true) ∧
      replay boardR start (movesOf [⟨⟨0, red⟩, ⟨1, red⟩, ⟨2, red⟩⟩]) = some ![1, 1, 1, 0, 0] ∧
      empty boardR ![1, 1, 1, 0, 0] = true := by
  refine ⟨by decide, ?_, by decide⟩
  have h1 : advance boardR start 0 = .ret (red, ![1, 0, 0, 0, 0], true) := by decide
  have h2 : advance boardR ![1, 0, 0, 0, 0] 1 = .ret (red, ![1, 1, 0, 0, 0], true) := by decide
  have h3 : advance boardR ![1, 1, 0, 0, 0] 2 = .ret (red, ![1, 1, 1, 0, 0], true) := by decide
  simp only [movesOf, triple.moves, List.cons_append, List.nil_append, replay, h1, h2, h3,
    if_true]

/-- C14 (collapse fixpoint): after a successful `advance` from a cursor satisfying the cursor
invariant, no column of the returned cursor qualifies for an automatic removal, and one
more collapse pass leaves the returned cursor unchanged and removes nothing. -/
theorem advance_collapse_fixpoint (b : board) (st : state) (col : Fin 5) (c : color)
    (st2 : state) (_hv : Valid b st) (h : advance b st (colInt col) = .ret (c, st2, true)) :
    (¬ ∃ i, st2 i < len (b i) ∧ index (b i) (st2 i) = some black ∧
      ∀ j, j ≠ i → len (b j) - st2 j < len (b i) - st2 i) ∧
    scan b cols st2 false = .ret (st2, false) := by
  have hfix := collapse_fixpoint b _ _ _ (advance_ok h).2.2
  exact ⟨fun ⟨i, hi⟩ => no_eligible_of_scan hfix i hi, hfix⟩

/-- Instance of C14 on `boardD`. -/
theorem advance_collapse_fixpoint_witness :
    Valid boardD start ∧ advance boardD start (colInt 0) = .ret (red, ![1, 2, 0, 0, 0], true) ∧
    (¬ ∃ i, (![1, 2, 0, 0, 0] : state) i < len (boardD i) ∧
      index (boardD i) ((![1, 2, 0, 0, 0] : state) i) = some black ∧
      ∀ j, j ≠ i → len (boardD j) - (![1, 2, 0, 0, 0] : state) j <
        len (boardD i) - (![1, 2, 0, 0, 0] : state) i) ∧
    scan boardD cols ![1, 2, 0, 0, 0] false = .ret (![1, 2, 0, 0, 0], false) :=
  ⟨valid_start boardD, by decide,
    advance_collapse_fixpoint boardD start 0 red ![1, 2, 0, 0, 0] (valid_start boardD)
      (by decide)⟩

/-- C15 (simultaneous-pass equivalence): from a cursor satisfying the cursor invariant and
for every column argument, `advance`, whose collapse pass increments cursors in place while
scanning, returns the same colour, cursor and flag as the reference definition whose passes
decide eligibility from the cursor at the start of the pass and increment all eligible
columns simultaneously. -/
theorem advance_eq_reference (b : board) (st : state) (col : Int) (hv : Valid b st) :
    advance b st col = advanceRef b st col := by
  have hn := valid_nonNeg hv
  cases hc : toCol col with
  | none => unfold advance advanceRef; rw [hc]
  | some i =>
    rw [toCol_eq_some hc]
    unfold advanceRef
    rw [advance_colInt, toCol_colInt]
    by_cases hge : st i ≥ len (b i)
    · have heq : st i = len (b i) := le_antisymm (hv i).2 hge
      simp only [hge, heq, if_true, ge_iff_le, le_refl]
    · have hne : ¬ st i = len (b i) := by omega
      simp only [hge, hne, if_false]
      cases index (b i) (st i) with
      | none => rfl
      | some c =>
        simp only [collapseRef_eq b _ _ (nonNeg_update hn i)]
        try rfl

/-- Instance of C15 on `boardD`, where the call removes two obstacles. -/
theorem advance_eq_reference_witness :
    Valid boardD start ∧
      advance boardD start (colInt 0) = advanceRef boardD start (colInt 0) ∧
      advanceRef boardD start (colInt 0) = .ret (red, ![1, 2, 0, 0, 0], true) :=
  ⟨valid_start boardD, advance_eq_reference boardD start (colInt 0) (valid_start boardD),
    by decide⟩

/-- C16 (tie rule): from a cursor satisfying the cursor invariant and a non-exhausted column
`col`, if after the real move the greatest remaining depth is attained by two different
columns, then `advance` removes nothing automatically: it returns the input cursor with
component `col` increased by exactly one. -/
theorem advance_tie_no_removal (b : board) (st : state) (col : Fin 5) (hv : Valid b st)
    (hlt : st col < len (b col))
    (htie : ∃ i j, i ≠ j ∧ len (b i) - bump st col i = len (b j) - bump st col j ∧
      ∀ k, len (b k) - bump st col k ≤ len (b i) - bump st col i) :
    ∃ c, advance b st (colInt col) = .ret (c, bump st col, true) := by
  unfold bump at htie ⊢
  have hn := valid_nonNeg hv
  obtain ⟨c, hc⟩ := index_isSome (hn col) hlt
  refine ⟨c, advance_of_collapse hlt hc ?_⟩
  apply collapse_no_eligible _ (nonNeg_update hn col)
  intro t ht
  obtain ⟨i, j, hij, heq, hmax⟩ := htie
  by_cases hti : t = i
  · subst hti
    have := ht.2.2 j (fun e => hij e.symm)
    omega
  · have := ht.2.2 i (fun e => hti e.symm)
    have := hmax t
    omega

/-- Instance of C16 on `boardE`: after the move on column 2 columns 0, 1 and 2 all have depth
two, the first two with an obstacle at the cursor, and nothing is removed. -/
theorem advance_tie_no_removal_witness :
    Valid boardE start ∧
      ∃ c, advance boardE start (colInt 2) = .ret (c, bump start 2, true) :=
  ⟨valid_start boardE,
    advance_tie_no_removal boardE start 2 (valid_start boardE) (by decide)
      ⟨0, 1, by decide, by decide, by decide⟩⟩

/-- C17 (termination): from a cursor satisfying the cursor invariant every `advance` call
returns, so its collapse loop terminates, and `solve` returns; three successive successful
`advance` calls raise the cursor sum by at least three, so the measure, total number of
blocks minus cursor sum, strictly decreases at every recursive call; and a recursion depth
of a third of the total number of blocks suffices: `solveFuel`, which bounds the number of
nested activations of `solve`, yields the result of `solve` with `total b / 3 + 1`
activations. -/
theorem solve_terminates (b : board) (st : state) (hv : Valid b st) :
    (∀ col : Fin 5, ∃ r, advance b st (colInt col) = .ret r) ∧
    (∃ r, solve b st = .ret r) ∧
    (∀ (i j k : Fin 5) (c1 c2 c3 : color) (st1 st2 st3 : state),
      advance b st (colInt i) = .ret (c1, st1, true) →
      advance b st1 (colInt j) = .ret (c2, st2, true) →
      advance b st2 (colInt k) = .ret (c3, st3, true) →
      cursorSum st3 ≥ cursorSum st + 3 ∧
      (total b : Int) - cursorSum st3 < (total b : Int) - cursorSum st ∧
      remaining b st3 + 3 ≤ remaining b st) ∧
    solveFuel (total b / 3 + 1) b st = solve b st := by
  have hn := valid_nonNeg hv
  refine ⟨?_, ?_, ?_, ?_⟩
  · intro col
    obtain ⟨c, st2, ok, ha, _⟩ := advance_nonneg (b := b) hn col
    exact ⟨_, ha⟩
  · exact solveFuel_ret b _ st hn (Nat.lt_succ_self _)
  · intro i j k c1 c2 c3 st1 st2 st3 h1 h2 h3
    have := advance_cursorSum h1
    have := advance_cursorSum h2
    have := advance_cursorSum h3
    have := (advance_mono h1).2.2.2
    have := (advance_mono h2).2.2.2
    have := (advance_mono h3).2.2.2
    refine ⟨by omega, by omega, by omega⟩
  · have hle := remaining_le_total hv
    exact solveFuel_budget3 b _ _ st (by omega) (by omega)

/-- Instance of C17 on `boardA` from the initial cursor. -/
theorem solve_terminates_witness :
    Valid boardA start ∧ (∃ r, solve boardA start = .ret r) ∧
      solveFuel (total boardA / 3 + 1) boardA start = solve boardA start :=
  ⟨valid_start boardA, (solve_terminates boardA start (valid_start boardA)).2.1,
    (solve_terminates boardA start (valid_start boardA)).2.2.2⟩

/-- C18 (only obstacles collapse): after a successful `advance` on column `col` from a cursor
satisfying the cursor invariant, every block between the input cursor and the returned
cursor, other than the block of the real move at position `st[col]` of column `col`, is an
obstacle. -/
theorem advance_only_obstacles (b : board) (st : state) (col : Fin 5) (c : color)
    (st2 : state) (_hv : Valid b st) (h : advance b st (colInt col) = .ret (c, st2, true)) :
    ∀ (i : Fin 5) (p : Int), st i ≤ p → p < st2 i → ¬ (i = col ∧ p = st col) →
      index (b i) p = some black := by
  intro i p h1 h2 hne
  have h3 := (advance_ok h).2.2
  apply collapse_only_obstacles b _ _ _ h3 i p ?_ h2
  by_cases hic : i = col
  · subst hic
    rw [Function.update_same]
    have : p ≠ st i := fun e => hne ⟨rfl, e⟩
    omega
  · rw [Function.update_noteq hic]; exact h1

/-- Instance of C18 on `boardD`. -/
theorem advance_only_obstacles_witness :
    Valid boardD start ∧ advance boardD start (colInt 0) = .ret (red, ![1, 2, 0, 0, 0], true) ∧
      ∀ (i : Fin 5) (p : Int), start i ≤ p → p < (![1, 2, 0, 0, 0] : state) i →
        ¬ (i = 0 ∧ p = start 0) → index (boardD i) p = some black :=
  ⟨valid_start boardD, by decide,
    advance_only_obstacles boardD start 0 red ![1, 2, 0, 0, 0] (valid_start boardD) (by decide)⟩

/-- C19 (single-column collapse): after a successful `advance` on column `col` from a cursor
satisfying the cursor invariant, every collapse pass changes at most one component, all
automatic removals of the call come from one column `t`, and the returned cursor differs
from the input cursor at most in the components `col` and `t`. -/
theorem advance_single_column (b : board) (st : state) (col : Fin 5) (c : color)
    (st2 : state) (_hv : Valid b st) (h : advance b st (colInt col) = .ret (c, st2, true)) :
    (∀ (s s2 : state) (r : Bool), scan b cols s false = .ret (s2, r) →
      ∃ t, ∀ i, i ≠ t → s2 i = s i) ∧
    ∃ t, (∀ i, i ≠ t → st2 i = bump st col i) ∧
      ∀ i, i ≠ col → i ≠ t → st2 i = st i := by
  unfold bump
  constructor
  · intro s s2 r hs
    rcases scan_cols_cases hs with ⟨_, rfl, _⟩ | ⟨_, t, _, rfl⟩
    · exact ⟨0, fun _ _ => rfl⟩
    · exact ⟨t, fun i hi => Function.update_noteq hi _ _⟩
  · obtain ⟨t, ht⟩ := collapse_single_column (advance_ok h).2.2
    refine ⟨t, ht, fun i hic hit => ?_⟩
    rw [ht i hit, Function.update_noteq hic]

/-- Instance of C19 on `boardD`. -/
theorem advance_single_column_witness :
    Valid boardD start ∧ advance boardD start (colInt 0) = .ret (red, ![1, 2, 0, 0, 0], true) ∧
    (∀ (s s2 : state) (r : Bool), scan boardD cols s false = .ret (s2, r) →
      ∃ t, ∀ i, i ≠ t → s2 i = s i) ∧
    ∃ t, (∀ i, i ≠ t → (![1, 2, 0, 0, 0] : state) i = bump start 0 i) ∧
      ∀ i, i ≠ 0 → i ≠ t → (![1, 2, 0, 0, 0] : state) i = start i :=
  ⟨valid_start boardD, by decide,
    advance_single_column boardD start 0 red ![1, 2, 0, 0, 0] (valid_start boardD) (by decide)⟩

/-- C20 (colour counting): when `solve` returns a solution with `ok = true` from a cursor
satisfying the cursor invariant, the number of remaining blocks of every non-obstacle colour
is three times the number of triples of that colour in the solution, and the number of
remaining non-obstacle blocks is three times the length of the solution; hence `solve`
reports `ok = false` whenever the remaining count of some non-obstacle colour is not a
multiple of three. -/
theorem solve_colour_count (b : board) (st : state) (hv : Valid b st) :
    (∀ soln, solve b st = .ret (soln, true) →
      (∀ c, c ≠ black → countColour b st c = 3 * triplesOf c soln) ∧
      countReal b st = 3 * soln.length) ∧
    ((∃ c, c ≠ black ∧ countColour b st c % 3 ≠ 0) → ∃ s, solve b st = .ret (s, false)) := by
  have key : ∀ soln, solve b st = .ret (soln, true) →
      (∀ c, c ≠ black → countColour b st c = 3 * triplesOf c soln) ∧
      countReal b st = 3 * soln.length := by
    intro soln h
    have hcl := solve_true_clears h
    refine ⟨fun c hc => ?_, clears_countReal hcl⟩
    unfold countColour triplesOf
    exact clears_remainingWhere (fun x => x == c) (by simpa using Ne.symm hc) hcl
  refine ⟨key, ?_⟩
  rintro ⟨c, hc, hmod⟩
  obtain ⟨s, ok, hr⟩ := solve_ret_of_nonNeg (b := b) (valid_nonNeg hv)
  cases ok with
  | false => exact ⟨s, hr⟩
  | true =>
    have := (key s hr).1 c hc
    omega

/-- Instance of C20 on `boardA` from the initial cursor. -/
theorem solve_colour_count_witness :
    Valid boardA start ∧ solve boardA start = .ret (solnA, true) ∧
      (∀ c, c ≠ black → countColour boardA start c = 3 * triplesOf c solnA) ∧
      countReal boardA start = 3 * solnA.length :=
  ⟨valid_start boardA, by decide,
    (solve_colour_count boardA start (valid_start boardA)).1 solnA (by decide)⟩

end Tumblestone
